import Mathlib

/-!
Verification of the BDD feature generator / step-definition reconciler
(`bdd_feature_generator.py`).  The Python functions are shallowly embedded:
strings are Lean `String`s, Python `set`s become `Finset String`, the
step-definition directory becomes a listing of `(filename, content)` pairs
(the flattened view that `os.walk` produces), and the regular-expression
operations of the source are implemented as executable character scanners
with exactly the matching semantics of the three concrete patterns used by
the source.
-/

namespace BddGen

/-- Characters that Python's `str.splitlines` treats as line boundaries. -/
def isLineBreak (c : Char) : Bool :=
  c == '\n' || c == '\r' || c == '\x0b' || c == '\x0c' ||
  c == '\x1c' || c == '\x1d' || c == '\x1e' || c == '\x85' ||
  c == '\u2028' || c == '\u2029'

/-- Characters that Python's `str.strip` and the regex class `\s` treat as
whitespace (ASCII whitespace together with the unicode space characters). -/
def isPySpace (c : Char) : Bool :=
  c == ' ' || c == '\t' || c == '\n' || c == '\r' || c == '\x0b' || c == '\x0c' ||
  c == '\x1c' || c == '\x1d' || c == '\x1e' || c == '\x1f' ||
  c == '\x85' || c == '\xa0' || c == '\u1680' ||
  ('\u2000' ≤ c && c ≤ '\u200a') ||
  c == '\u2028' || c == '\u2029' || c == '\u202f' || c == '\u205f' || c == '\u3000'

/-- Worker for `pySplitlines`: accumulates the current line (reversed) and
emits it at each line boundary; `\r\n` counts as a single boundary. -/
def splitAux : List Char → List Char → List String
  | [], acc => if acc.isEmpty then [] else [String.mk acc.reverse]
  | c :: rest, acc =>
    if c = '\r' then
      match rest with
      | [] => String.mk acc.reverse :: splitAux [] []
      | d :: rest2 =>
        if d = '\n' then String.mk acc.reverse :: splitAux rest2 []
        else String.mk acc.reverse :: splitAux (d :: rest2) []
    else if isLineBreak c then String.mk acc.reverse :: splitAux rest []
    else splitAux rest (c :: acc)

/-- Python's `str.splitlines()`. -/
def pySplitlines (s : String) : List String :=
  splitAux s.data []

/-- Python's `str.strip()`: remove leading and trailing whitespace. -/
def pyStrip (s : String) : String :=
  String.mk (((s.data.dropWhile isPySpace).reverse.dropWhile isPySpace).reverse)

/-- Python's `str.startswith`. -/
def pyStartsWith (s p : String) : Bool :=
  p.data.isPrefixOf s.data

/-- Python's `str.endswith`. -/
def pyEndsWith (s p : String) : Bool :=
  p.data.isSuffixOf s.data

/-- Scan for the first `>` and return the remainder after it (the tail of a
`[^>]+>` match whose first content character has already been checked). -/
def phTail : List Char → Option (List Char)
  | [] => none
  | c :: cs => if c = '>' then some cs else phTail cs

/-- After an opening `<`: match `[^>]+>` (at least one character other than
`>`, then the closing `>`), returning the remainder. -/
def phBody : List Char → Option (List Char)
  | [] => none
  | c :: cs => if c = '>' then none else phTail cs

/-- Attempt to match the regex `\s+<[^>]+>` at the head of the list,
returning the remainder after the match.  `\s+` is effectively the maximal
whitespace run here, since any shorter choice is again followed by a
whitespace character rather than `<`. -/
def tryPH (l : List Char) : Option (List Char) :=
  if (l.takeWhile isPySpace).isEmpty then none
  else
    match l.dropWhile isPySpace with
    | '<' :: cs => phBody cs
    | _ => none

/-- Fuelled worker for `re.sub(r'\s+<[^>]+>', '', ·)`: leftmost
non-overlapping matches are deleted, all other characters are kept. -/
def subAuxF : Nat → List Char → List Char
  | 0, l => l
  | _ + 1, [] => []
  | f + 1, c :: cs =>
    match tryPH (c :: cs) with
    | some rest => subAuxF f rest
    | none => c :: subAuxF f cs

/-- The placeholder-removing substitution `re.sub(r'\s+<[^>]+>', '', line)`
of `extract_steps_from_feature` (line 74 of the source). -/
def pySubPH (s : String) : String :=
  String.mk (subAuxF s.data.length s.data)

/-- The per-line treatment of `extract_steps_from_feature` (lines 70-74):
strip the line; if it starts with one of the three keywords followed by a
space, return the line with placeholder parameters removed, otherwise
nothing. -/
def lineStep (rawLine : String) : Option String :=
  let line := pyStrip rawLine
  if pyStartsWith line "Given " || pyStartsWith line "When " || pyStartsWith line "Then " then
    some (pySubPH line)
  else none

/-- One iteration of the accumulation loop of
`extract_steps_from_feature`: add the normalized step of the line, if any,
to the set. -/
def stepIns (steps : Finset String) (rawLine : String) : Finset String :=
  match lineStep rawLine with
  | some st => insert st steps
  | none => steps

/-- `extract_steps_from_feature` (lines 64-76): the set of normalized
Given/When/Then steps of a Gherkin feature string. -/
def extract_steps_from_feature (feature_content : String) : Finset String :=
  (pySplitlines feature_content).foldl stepIns ∅

/-- The normalized steps of a feature as a deduplicated list (first
occurrences, in line order); this fixes one concrete enumeration of the
set `extract_steps_from_feature` computes. -/
def extractStepsList (feature_content : String) : List String :=
  ((pySplitlines feature_content).filterMap lineStep).dedup

/-- Try to match the literal prefix `@(Given|When|Then)\("` of the
step-definition registration regex (line 90 of the source), returning the
remainder after the opening quote. -/
def dropKw (l : List Char) : Option (List Char) :=
  if "@Given(\"".data.isPrefixOf l then some (l.drop 8)
  else if "@When(\"".data.isPrefixOf l then some (l.drop 7)
  else if "@Then(\"".data.isPrefixOf l then some (l.drop 7)
  else none

/-- Attempt to match the regex `@(Given|When|Then)\("([^"]+)"\)` at the head
of the list, returning the captured pattern (group 2) and the remainder
after the match. -/
def tryStepDef (l : List Char) : Option (List Char × List Char) :=
  match dropKw l with
  | none => none
  | some rest =>
    let pat := rest.takeWhile (fun c => c ≠ '"')
    if pat.isEmpty then none
    else
      match rest.dropWhile (fun c => c ≠ '"') with
      | '"' :: ')' :: r => some (pat, r)
      | _ => none

/-- Fuelled scanner for `re.finditer` with the registration regex: collect
the captured patterns of the leftmost non-overlapping matches. -/
def scanAux : Nat → List Char → List String
  | 0, _ => []
  | _ + 1, [] => []
  | f + 1, c :: cs =>
    match tryStepDef (c :: cs) with
    | some (pat, rest) => String.mk pat :: scanAux f rest
    | none => scanAux f cs

/-- All patterns captured by `re.finditer(r'@(Given|When|Then)\("([^"]+)"\)', content)`
in order of occurrence (lines 90-91 of the source). -/
def pyScanPatterns (content : String) : List String :=
  scanAux content.data.length content.data

/-- A step-definition directory is modelled as the listing of
`(filename, content)` pairs that `os.walk` enumerates beneath the root
(recursively); `none` models a root directory that does not exist, for
which `os.walk` silently yields no entries at all (its default `onerror`
ignores the failure to list the root). -/
abbrev DirListing := List (String × String)

/-- `find_existing_step_defs` (lines 78-92): scan every `.java` file of the
step-definition directory for registration clauses and collect the
registered patterns (the regex group 2 — the keyword of group 1 is
discarded by the source).  A missing root contributes nothing because
`os.walk` yields no entries for it. -/
def find_existing_step_defs : Option DirListing → Finset String
  | none => ∅
  | some files =>
    ((files.filter (fun f => pyEndsWith f.1 ".java")).flatMap (fun f => pyScanPatterns f.2)).toFinset

/-- The `annotation` local of `generate_java_step_def` (line 99):
`step.split(' ', 1)[0]`, i.e. everything before the first space. -/
def annotOf (step : String) : String :=
  String.mk (step.data.takeWhile (fun c => c ≠ ' '))

/-- The `step_text` local of `generate_java_step_def` (line 100):
`step[len(annotation):].strip()`. -/
def stepTextOf (step : String) : String :=
  pyStrip (String.mk (step.data.drop (annotOf step).data.length))

/-- The ASCII character class `[a-zA-Z0-9]` of the identifier regex on
line 101 of the source. -/
def isAsciiAlnum (c : Char) : Bool :=
  ('a' ≤ c && c ≤ 'z') || ('A' ≤ c && c ≤ 'Z') || ('0' ≤ c && c ≤ '9')

/-- The `method_name` local of `generate_java_step_def` (line 101):
`re.sub(r'[^a-zA-Z0-9]', '_', step_text).lower()` — each character of the
single-character class is replaced independently, then the result is
lowercased (after the substitution only ASCII letters, digits and
underscores remain, on which Python's `.lower()` agrees with
`Char.toLower`). -/
def methodNameOf (step : String) : String :=
  String.mk ((((stepTextOf step).data.map (fun c => if isAsciiAlnum c then c else '_')).map Char.toLower))

/-- `generate_java_step_def` (lines 94-102): render the Java stub for one
step (the braces of the Java body are written with `\x7b`/`\x7d` escapes). -/
def generate_java_step_def (step : String) : String :=
  "    @" ++ annotOf step ++ "(\"" ++ stepTextOf step ++ "\")\n    public void " ++
    methodNameOf step ++ "() \x7b\n        // TODO: Implement step\n    \x7d\n"

/-- The in-memory form of one endpoint of the analysis JSON:
`{name, service_calls}` (`endpoint.get('service_calls', [])` defaults to
the empty list). -/
structure Endpoint where
  name : String
  service_calls : List String

/-- One controller of the analysis JSON: `{name, endpoints}`. -/
structure Controller where
  name : String
  endpoints : List Endpoint

/-- The analysis document: all four top-level keys are optional in the
JSON and default to the empty list under `analysis.get(..., [])`; the
structure holds the already-defaulted values. -/
structure Analysis where
  controllers : List Controller
  dtos : List String
  validations : List String
  exceptions : List String

/-- Python's `'\n'.join` on a list of strings. -/
def pyJoinNl : List String → String
  | [] => ""
  | [l] => l
  | l :: l2 :: rest => l ++ "\n" ++ pyJoinNl (l2 :: rest)

/-- The `feature_lines` list built by `scenario_for_endpoint`
(lines 17-46): header, the positive scenario, then one block per
validation, exception and service-call label, in that order, each block
terminated by an empty line. -/
def scenario_lines (controller : Controller) (endpoint : Endpoint)
    (validations exceptions service_calls : List String) : List String :=
  ["Feature: " ++ endpoint.name ++ " endpoint in " ++ controller.name,
   "",
   "  Scenario: Successful call to " ++ endpoint.name,
   "    Given valid input for " ++ endpoint.name,
   "    When the API is called",
   "    Then the response should indicate success",
   ""]
  ++ validations.flatMap (fun v =>
      ["  Scenario: Validation error - " ++ v,
       "    Given invalid input that triggers " ++ v,
       "    When the API is called",
       "    Then the response should indicate a validation error for " ++ v,
       ""])
  ++ exceptions.flatMap (fun e =>
      ["  Scenario: Exception - " ++ e,
       "    Given a situation that causes " ++ e,
       "    When the API is called",
       "    Then the response should indicate an error for " ++ e,
       ""])
  ++ service_calls.flatMap (fun call =>
      ["  Scenario: Dependency call - " ++ call,
       "    Given the API depends on " ++ call,
       "    When the API is called",
       "    Then the response should reflect the result of " ++ call,
       ""])

/-- `scenario_for_endpoint` (lines 13-47); the `dtos` argument is accepted
and ignored exactly as in the source. -/
def scenario_for_endpoint (controller : Controller) (endpoint : Endpoint)
    (dtos validations exceptions service_calls : List String) : String :=
  pyJoinNl (scenario_lines controller endpoint validations exceptions service_calls)

/-- `os.path.join` for the relative file names used here. -/
def pyPathJoin (a b : String) : String :=
  if a = "" || pyEndsWith a "/" then a ++ b else a ++ "/" ++ b

/-- `generate_bdd_features` (lines 49-61), modelled as the list of
`(path, content)` pairs it writes, in write order. -/
def generate_bdd_features (analysis : Analysis) (output_dir : String) : List (String × String) :=
  analysis.controllers.flatMap (fun controller =>
    controller.endpoints.map (fun endpoint =>
      (pyPathJoin output_dir (controller.name ++ "_" ++ endpoint.name ++ ".feature"),
       scenario_for_endpoint controller endpoint analysis.dtos analysis.validations
         analysis.exceptions endpoint.service_calls)))

/-- Append `text` to the file called `name` of a directory listing,
creating the file if it is absent (`open(..., 'a')`). -/
def appendFile (files : DirListing) (name text : String) : DirListing :=
  if files.any (fun f => f.1 == name) then
    files.map (fun f => if f.1 == name then (f.1, f.2 ++ text) else f)
  else files ++ [(name, text)]

/-- `update_or_create_step_defs` (lines 104-125) on the feature contents
read from the feature directory: compute `all_steps`, subtract the indexed
patterns, and if anything is missing append one stub per missing step to
`StepDefinitions.java`, returning the new store and the number of appended
stubs.  Python iterates the `missing_steps` set in an unspecified order;
the model appends in sorted order, which leaves every set-level result
(and the scanned pattern set of the store) unchanged. -/
def update_or_create_step_defs (features : List String) (store : DirListing) :
    DirListing × Nat :=
  let all_steps := features.foldl (fun s f => s ∪ extract_steps_from_feature f) ∅
  let existing_steps := find_existing_step_defs (some store)
  let missing_steps := all_steps \ existing_steps
  if missing_steps = ∅ then (store, 0)
  else
    let missingList :=
      ((features.flatMap extractStepsList).dedup).filter (fun st => !(decide (st ∈ existing_steps)))
    (appendFile store "StepDefinitions.java"
      (String.join (missingList.map (fun st => generate_java_step_def st ++ "\n"))),
     missing_steps.card)

/-- One full pipeline run of `main` (lines 128-139): generate all feature
files from the analysis document, then reconcile the step-definition
store against their contents. -/
def runPipeline (analysis : Analysis) (store : DirListing) : DirListing × Nat :=
  update_or_create_step_defs ((generate_bdd_features analysis "features").map Prod.snd) store

/-! Spec-side definitions.  The following definitions follow the words of
the specification (sections 3, 4.1, 4.2 and 8) rather than the source;
the refinement theorems below compare them with the source functions. -/

/-- Modelled from the spec: a step line with a keyword and literal text. -/
structure SpecStep where
  kw : String
  text : String

/-- Modelled from the spec: a named scenario with its ordered steps. -/
structure SpecScenario where
  name : String
  steps : List SpecStep

/-- Modelled from the spec: a feature with a title and ordered scenarios. -/
structure SpecFeature where
  title : String
  scenarios : List SpecScenario

/-- Modelled from the spec (section 4.1): the feature for one endpoint —
one positive scenario, then one scenario per validation label in document
order, one per exception label in document order, one per service-call
label in endpoint order. -/
def specFeature (cname ename : String)
    (validations exceptions service_calls : List String) : SpecFeature where
  title := ename ++ " endpoint in " ++ cname
  scenarios :=
    ⟨"Successful call to " ++ ename,
      [⟨"Given", "valid input for " ++ ename⟩,
       ⟨"When", "the API is called"⟩,
       ⟨"Then", "the response should indicate success"⟩]⟩
    :: (validations.map (fun v =>
        ⟨"Validation error - " ++ v,
          [⟨"Given", "invalid input that triggers " ++ v⟩,
           ⟨"When", "the API is called"⟩,
           ⟨"Then", "the response should indicate a validation error for " ++ v⟩]⟩)
      ++ exceptions.map (fun e =>
        ⟨"Exception - " ++ e,
          [⟨"Given", "a situation that causes " ++ e⟩,
           ⟨"When", "the API is called"⟩,
           ⟨"Then", "the response should indicate an error for " ++ e⟩]⟩)
      ++ service_calls.map (fun call =>
        ⟨"Dependency call - " ++ call,
          [⟨"Given", "the API depends on " ++ call⟩,
           ⟨"When", "the API is called"⟩,
           ⟨"Then", "the response should reflect the result of " ++ call⟩]⟩))

/-- Modelled from the spec (section 6): render one step line. -/
def renderStepLine (st : SpecStep) : String :=
  "    " ++ st.kw ++ " " ++ st.text

/-- Modelled from the spec (section 6): each scenario is a header line
followed by its step lines, with a blank separator line. -/
def renderScenario (sc : SpecScenario) : List String :=
  ("  Scenario: " ++ sc.name) :: (sc.steps.map renderStepLine ++ [""])

/-- Modelled from the spec (section 6): a title line, a blank line, then
the scenarios. -/
def renderFeature (ft : SpecFeature) : String :=
  pyJoinNl (("Feature: " ++ ft.title) :: "" :: ft.scenarios.flatMap renderScenario)

/-- Modelled from the spec (sections 4.2 and 6): the expected
`(path, content)` pairs of a generation run. -/
def specOutputs (a : Analysis) (output_dir : String) : List (String × String) :=
  a.controllers.flatMap (fun c =>
    c.endpoints.map (fun e =>
      (pyPathJoin output_dir (c.name ++ "_" ++ e.name ++ ".feature"),
       renderFeature (specFeature c.name e.name a.validations a.exceptions e.service_calls))))

/-- Modelled from the spec (section 4.5): the claimed identifier
derivation — every run of consecutive non-alphanumeric characters
collapsed to a single underscore, the result lowercased.  The flag records
whether the previous character already produced an underscore. -/
def collapseAux : Bool → List Char → List Char
  | _, [] => []
  | prevUnd, c :: cs =>
    if isAsciiAlnum c then c :: collapseAux false cs
    else if prevUnd then collapseAux true cs
    else '_' :: collapseAux true cs

/-- Modelled from the spec (section 4.5): the identifier with collapsed
runs, lowercased. -/
def collapseRuns (s : String) : String :=
  String.mk ((collapseAux false s.data).map Char.toLower)

/-- A decomposition of a candidate step line into literal text and
angle-bracket placeholder tokens. -/
inductive Seg where
  | lit : String → Seg
  | ph : String → Seg

/-- Render a decomposition back into the character sequence of the line. -/
def renderSegs : List Seg → List Char
  | [] => []
  | .lit s :: rest => s.data ++ renderSegs rest
  | .ph c :: rest => '<' :: (c.data ++ '>' :: renderSegs rest)

/-- Well-formedness of one segment: literal text carries no angle
brackets (brackets appear only as placeholder delimiters), and a
placeholder token has nonempty content free of angle brackets. -/
def segWF : Seg → Bool
  | .lit s => s.data.all (fun c => c ≠ '<' && c ≠ '>')
  | .ph c => !c.data.isEmpty && c.data.all (fun d => d ≠ '<' && d ≠ '>')

/-- Well-formedness of a decomposition. -/
def segsWF (l : List Seg) : Bool :=
  l.all segWF

/-- No two adjacent literal segments (adjacent literals are merged into
one, so a decomposition never needs them). -/
def noTwoLits : List Seg → Bool
  | .lit _ :: .lit _ :: _ => false
  | _ :: rest => noTwoLits rest
  | [] => true

/-- Does the literal end in a whitespace character? -/
def endsInWs (s : String) : Bool :=
  !(s.data.reverse.takeWhile isPySpace).isEmpty

/-- Worker for `wsPreceded`: check each element against its predecessor. -/
def wsPrecededAux : Seg → List Seg → Bool
  | _, [] => true
  | prev, x :: rest =>
    (match x, prev with
     | .ph _, .lit s => endsInWs s
     | .ph _, .ph _ => false
     | .lit _, _ => true) && wsPrecededAux x rest

/-- Every placeholder token of the decomposition is immediately preceded
by whitespace (the situation the claim's normalization rule describes). -/
def wsPreceded : List Seg → Bool
  | [] => true
  | .ph _ :: _ => false
  | x :: rest => wsPrecededAux x rest

/-- Two decompositions have the same shape: identical literal segments,
with placeholder tokens (of possibly different content) at the same
positions. -/
def sameShape : List Seg → List Seg → Bool
  | [], [] => true
  | .lit s :: r1, .lit t :: r2 => s == t && sameShape r1 r2
  | .ph _ :: r1, .ph _ :: r2 => sameShape r1 r2
  | _, _ => false

/-- The literal with its trailing whitespace run removed. -/
def dropTrailingWs (l : List Char) : List Char :=
  (l.reverse.dropWhile isPySpace).reverse

/-- The claimed normal form of a candidate line, computed on the
decomposition: every placeholder token is removed together with the
maximal whitespace run immediately preceding it; a placeholder not
preceded by whitespace is kept verbatim. -/
def specNorm : List Seg → List Char
  | [] => []
  | .ph c :: rest => '<' :: (c.data ++ '>' :: specNorm rest)
  | .lit s :: .ph c :: rest =>
    if endsInWs s then dropTrailingWs s.data ++ specNorm rest
    else s.data ++ ('<' :: (c.data ++ '>' :: specNorm rest))
  | .lit s :: rest => s.data ++ specNorm rest

/-- Is the string free of line-break characters? -/
def noLB (s : String) : Bool :=
  s.data.all (fun c => !isLineBreak c)

/-- A label (or name) is clean when it is nonempty, contains no
line-break characters and no angle brackets, and does not end in a
whitespace character. -/
def cleanLabel (s : String) : Bool :=
  !s.data.isEmpty &&
  s.data.all (fun c => !isLineBreak c && c ≠ '<' && c ≠ '>') &&
  !(isPySpace (s.data.reverse.headD 'a'))

/-! Theorems. -/

/-! Helper lemmas for the regex scanners. -/



theorem mem_of_isPrefixOf {p l : List Char} (h : p.isPrefixOf l = true) :
    ∀ a ∈ p, a ∈ l := by
  induction p generalizing l with
  | nil => intro a ha; cases ha
  | cons b bs ih =>
    cases l with
    | nil => simp [List.isPrefixOf] at h
    | cons c cs =>
      rw [show (b :: bs).isPrefixOf (c :: cs) = (b == c && bs.isPrefixOf cs) from rfl,
        Bool.and_eq_true, beq_iff_eq] at h
      intro a ha
      rcases List.mem_cons.1 ha with ha | ha
      · rw [ha, h.1]; exact List.mem_cons_self c cs
      · exact List.mem_cons_of_mem c (ih h.2 a ha)

theorem tryStepDef_none_no_quote {l : List Char} (h : ∀ a ∈ l, a ≠ '"') :
    tryStepDef l = none := by
  unfold tryStepDef
  cases hk : dropKw l with
  | none => rfl
  | some rest =>
    exfalso
    unfold dropKw at hk
    by_cases h1 : "@Given(\"".data.isPrefixOf l
    · exact h _ (mem_of_isPrefixOf h1 '"' (by decide)) rfl
    · by_cases h2 : "@When(\"".data.isPrefixOf l
      · exact h _ (mem_of_isPrefixOf h2 '"' (by decide)) rfl
      · by_cases h3 : "@Then(\"".data.isPrefixOf l
        · exact h _ (mem_of_isPrefixOf h3 '"' (by decide)) rfl
        · rw [if_neg h1, if_neg h2, if_neg h3] at hk; exact Option.noConfusion hk

theorem scanAux_no_quote : ∀ (f : Nat) (l : List Char), (∀ a ∈ l, a ≠ '"') → scanAux f l = []
  | 0, _, _ => rfl
  | _ + 1, [], _ => rfl
  | f + 1, c :: cs, h => by
    rw [show scanAux (f + 1) (c :: cs) = (match tryStepDef (c :: cs) with
      | some (pat, rest) => String.mk pat :: scanAux f rest
      | none => scanAux f cs) from rfl]
    rw [tryStepDef_none_no_quote h]
    exact scanAux_no_quote f cs (fun a ha => h a (List.mem_cons_of_mem c ha))

theorem tryStepDef_none_no_at {c : Char} {cs : List Char} (h : c ≠ '@') :
    tryStepDef (c :: cs) = none := by
  unfold tryStepDef dropKw
  have hne : ∀ (p : List Char) (b : Char), b = '@' → (b :: p).isPrefixOf (c :: cs) = false := by
    intro p b hb
    rw [show (b :: p).isPrefixOf (c :: cs) = (b == c && p.isPrefixOf cs) from rfl]
    simp [hb, Ne.symm h]
  rw [show ("@Given(\"".data) = '@' :: "Given(\"".data from rfl, hne _ _ rfl]
  rw [show ("@When(\"".data) = '@' :: "When(\"".data from rfl, hne _ _ rfl]
  rw [show ("@Then(\"".data) = '@' :: "Then(\"".data from rfl, hne _ _ rfl]
  simp

theorem scanAux_skip : ∀ (pre : List Char), (∀ c ∈ pre, c ≠ '@') →
    ∀ (f : Nat) (l : List Char), scanAux (pre.length + f) (pre ++ l) = scanAux f l := by
  intro pre
  induction pre with
  | nil => intro _ f l; simp
  | cons c cs ih =>
    intro h f l
    rw [show (c :: cs).length + f = (cs.length + f) + 1 by rw [List.length_cons]; omega]
    rw [show (c :: cs) ++ l = c :: (cs ++ l) from rfl]
    rw [show scanAux ((cs.length + f) + 1) (c :: (cs ++ l)) = (match tryStepDef (c :: (cs ++ l)) with
      | some (pat, rest) => String.mk pat :: scanAux (cs.length + f) rest
      | none => scanAux (cs.length + f) (cs ++ l)) from rfl]
    rw [tryStepDef_none_no_at (h c (List.mem_cons_self c cs))]
    exact ih (fun a ha => h a (List.mem_cons_of_mem c ha)) f l

theorem takeWhile_append_cons (p : Char → Bool) (l : List Char) (c : Char) (r : List Char)
    (h : ∀ a ∈ l, p a) (hc : ¬ p c) : (l ++ c :: r).takeWhile p = l := by
  induction l with
  | nil => simp [List.takeWhile_cons, hc]
  | cons b bs ih =>
    rw [List.cons_append, List.takeWhile_cons, if_pos (h b (List.mem_cons_self b bs))]
    rw [ih (fun a ha => h a (List.mem_cons_of_mem b ha))]

theorem dropWhile_append_cons (p : Char → Bool) (l : List Char) (c : Char) (r : List Char)
    (h : ∀ a ∈ l, p a) (hc : ¬ p c) : (l ++ c :: r).dropWhile p = c :: r := by
  induction l with
  | nil => simp [List.dropWhile_cons, hc]
  | cons b bs ih =>
    rw [List.cons_append, List.dropWhile_cons, if_pos (h b (List.mem_cons_self b bs))]
    exact ih (fun a ha => h a (List.mem_cons_of_mem b ha))


theorem toNat_ofNat_small (n : Nat) (h : n < 55296) : (Char.ofNat n).toNat = n := by
  rw [Char.ofNat, dif_pos (Or.inl h)]
  simp [Char.ofNatAux, Char.toNat, UInt32.toNat]

theorem toLower_stub_char_ne (c a : Char) (ha65 : a.toNat < 65)
    (haa : isAsciiAlnum a = false) (hane : a ≠ '_') :
    Char.toLower (if isAsciiAlnum c then c else '_') ≠ a := by
  by_cases h : isAsciiAlnum c
  · rw [if_pos h]
    unfold Char.toLower
    by_cases h2 : c.toNat ≥ 65 ∧ c.toNat ≤ 90
    · rw [if_pos h2]
      intro heq
      have h3 := congrArg Char.toNat heq
      rw [toNat_ofNat_small (c.toNat + 32) (by omega)] at h3
      omega
    · rw [if_neg h2]
      intro heq
      rw [heq] at h
      rw [h] at haa
      exact Bool.noConfusion haa
  · rw [if_neg h, show Char.toLower '_' = '_' from by decide]
    exact fun heq => hane heq.symm

theorem methodName_no_quote (step : String) : ∀ a ∈ (methodNameOf step).data, a ≠ '"' := by
  intro a ha
  unfold methodNameOf at ha
  simp only [List.mem_map] at ha
  obtain ⟨b, ⟨c, _, rfl⟩, rfl⟩ := ha
  exact toLower_stub_char_ne c '"' (by decide) (by decide) (by decide)

theorem tryStepDef_match (kw : String)
    (hkw : kw = "Given" ∨ kw = "When" ∨ kw = "Then")
    (T : List Char) (hT : T ≠ []) (hTq : ∀ a ∈ T, a ≠ '"') (rest : List Char) :
    tryStepDef ('@' :: (kw.data ++ ('(' :: '"' :: (T ++ ('"' :: ')' :: rest))))) =
      some (T, rest) := by
  have htw : (T ++ ('"' :: ')' :: rest)).takeWhile (fun c => c ≠ '"') = T := by
    refine takeWhile_append_cons _ T '"' (')' :: rest) ?_ (by simp)
    intro a haT
    simp [hTq a haT]
  have hdw : (T ++ ('"' :: ')' :: rest)).dropWhile (fun c => c ≠ '"') = '"' :: ')' :: rest := by
    refine dropWhile_append_cons _ T '"' (')' :: rest) ?_ (by simp)
    intro a haT
    simp [hTq a haT]
  have hTe : T.isEmpty = false := by
    cases T with
    | nil => exact absurd rfl hT
    | cons x xs => rfl
  have tail : (if ((T ++ ('"' :: ')' :: rest)).takeWhile (fun c => c ≠ '"')).isEmpty = true
        then none
        else
          match (T ++ ('"' :: ')' :: rest)).dropWhile (fun c => c ≠ '"') with
          | '"' :: ')' :: r => some ((T ++ ('"' :: ')' :: rest)).takeWhile (fun c => c ≠ '"'), r)
          | _ => none) = some (T, rest) := by
    rw [htw, hdw, hTe]
    rfl
  rcases hkw with h | h | h <;> subst h
  · have hpre : ("@Given(\"".data.isPrefixOf
        ('@' :: ("Given".data ++ ('(' :: '"' :: (T ++ ('"' :: ')' :: rest)))))) = true := by
      simp [List.isPrefixOf]
    unfold tryStepDef dropKw
    rw [if_pos hpre]
    exact tail
  · have hpre1 : ("@Given(\"".data.isPrefixOf
        ('@' :: ("When".data ++ ('(' :: '"' :: (T ++ ('"' :: ')' :: rest)))))) = false := by
      simp [List.isPrefixOf]
    have hpre2 : ("@When(\"".data.isPrefixOf
        ('@' :: ("When".data ++ ('(' :: '"' :: (T ++ ('"' :: ')' :: rest)))))) = true := by
      simp [List.isPrefixOf]
    unfold tryStepDef dropKw
    rw [hpre1, hpre2]
    exact tail
  · have hpre1 : ("@Given(\"".data.isPrefixOf
        ('@' :: ("Then".data ++ ('(' :: '"' :: (T ++ ('"' :: ')' :: rest)))))) = false := by
      simp [List.isPrefixOf]
    have hpre2 : ("@When(\"".data.isPrefixOf
        ('@' :: ("Then".data ++ ('(' :: '"' :: (T ++ ('"' :: ')' :: rest)))))) = false := by
      simp [List.isPrefixOf]
    have hpre3 : ("@Then(\"".data.isPrefixOf
        ('@' :: ("Then".data ++ ('(' :: '"' :: (T ++ ('"' :: ')' :: rest)))))) = true := by
      simp [List.isPrefixOf]
    unfold tryStepDef dropKw
    rw [hpre1, hpre2, hpre3]
    exact tail

theorem data_append_str (a b : String) : (a ++ b).data = a.data ++ b.data := by
  cases a
  cases b
  rfl

theorem pyScanPatterns_stub (kw T M : String)
    (hkw : kw = "Given" ∨ kw = "When" ∨ kw = "Then")
    (hT : T.data ≠ []) (hTq : ∀ a ∈ T.data, a ≠ '"') (hMq : ∀ a ∈ M.data, a ≠ '"') :
    pyScanPatterns ("    @" ++ kw ++ "(\"" ++ T ++ "\")\n    public void " ++ M ++
      "() \x7b\n        // TODO: Implement step\n    \x7d\n") = [T] := by
  have hdata : ("    @" ++ kw ++ "(\"" ++ T ++ "\")\n    public void " ++ M ++
      "() \x7b\n        // TODO: Implement step\n    \x7d\n").data =
      [' ', ' ', ' ', ' '] ++
        ('@' :: (kw.data ++ ('(' :: '"' :: (T.data ++ ('"' :: ')' ::
          ("\n    public void ".data ++ (M.data ++
            "() \x7b\n        // TODO: Implement step\n    \x7d\n".data))))))) := by
    simp only [data_append_str, List.append_assoc]
    rfl
  unfold pyScanPatterns
  rw [hdata, List.length_append, scanAux_skip [' ', ' ', ' ', ' '] (by decide)]
  rw [show ('@' :: (kw.data ++ ('(' :: '"' :: (T.data ++ ('"' :: ')' ::
      ("\n    public void ".data ++ (M.data ++
        "() \x7b\n        // TODO: Implement step\n    \x7d\n".data))))))).length =
    (kw.data ++ ('(' :: '"' :: (T.data ++ ('"' :: ')' ::
      ("\n    public void ".data ++ (M.data ++
        "() \x7b\n        // TODO: Implement step\n    \x7d\n".data)))))).length + 1 from rfl]
  rw [show scanAux ((kw.data ++ ('(' :: '"' :: (T.data ++ ('"' :: ')' ::
      ("\n    public void ".data ++ (M.data ++
        "() \x7b\n        // TODO: Implement step\n    \x7d\n".data)))))).length + 1)
      ('@' :: (kw.data ++ ('(' :: '"' :: (T.data ++ ('"' :: ')' ::
        ("\n    public void ".data ++ (M.data ++
          "() \x7b\n        // TODO: Implement step\n    \x7d\n".data))))))) =
    (match tryStepDef ('@' :: (kw.data ++ ('(' :: '"' :: (T.data ++ ('"' :: ')' ::
        ("\n    public void ".data ++ (M.data ++
          "() \x7b\n        // TODO: Implement step\n    \x7d\n".data))))))) with
      | some (pat, rest) => String.mk pat :: scanAux ((kw.data ++ ('(' :: '"' :: (T.data ++ ('"' :: ')' ::
          ("\n    public void ".data ++ (M.data ++
            "() \x7b\n        // TODO: Implement step\n    \x7d\n".data)))))).length) rest
      | none => scanAux ((kw.data ++ ('(' :: '"' :: (T.data ++ ('"' :: ')' ::
          ("\n    public void ".data ++ (M.data ++
            "() \x7b\n        // TODO: Implement step\n    \x7d\n".data)))))).length)
          (kw.data ++ ('(' :: '"' :: (T.data ++ ('"' :: ')' ::
            ("\n    public void ".data ++ (M.data ++
              "() \x7b\n        // TODO: Implement step\n    \x7d\n".data))))))) from rfl]
  rw [tryStepDef_match kw hkw T.data hT hTq]
  show String.mk T.data :: scanAux ((kw.data ++ ('(' :: '"' :: (T.data ++ ('"' :: ')' ::
      ("\n    public void ".data ++ (M.data ++
        "() \x7b\n        // TODO: Implement step\n    \x7d\n".data)))))).length)
      ("\n    public void ".data ++ (M.data ++
        "() \x7b\n        // TODO: Implement step\n    \x7d\n".data)) = [T]
  rw [scanAux_no_quote]
  intro a ha
  rcases List.mem_append.1 ha with h | h
  · exact (by decide : ∀ x ∈ "\n    public void ".data, x ≠ '"') a h
  · rcases List.mem_append.1 h with h2 | h2
    · exact hMq a h2
    · exact (by decide :
        ∀ x ∈ "() \x7b\n        // TODO: Implement step\n    \x7d\n".data, x ≠ '"') a h2


/-- Fuse a map into a following flatMap. -/
theorem flatMap_map_eq {α β γ : Type} (l : List α) (g : α → β) (h : β → List γ) :
    (l.map g).flatMap h = l.flatMap (fun a => h (g a)) := by
  induction l with
  | nil => rfl
  | cons a t ih => simp [List.map_cons, List.flatMap_cons, ih]

/-- C3.  `scenario_for_endpoint` renders exactly the specified feature:
one positive three-step scenario, then the validation scenarios in
document order, the exception scenarios in document order and the
service-call scenarios in endpoint order; with all three label lists
empty the feature consists of exactly the positive scenario with its
three steps; and `generate_bdd_features` emits each feature at
`<output_dir>/<controller_name>_<endpoint_name>.feature`. -/
theorem claim_C3_feature_structure :
    (∀ (c : Controller) (e : Endpoint) (dtos validations exceptions service_calls : List String),
      scenario_for_endpoint c e dtos validations exceptions service_calls =
        renderFeature (specFeature c.name e.name validations exceptions service_calls)) ∧
    (∀ cname ename : String,
      (specFeature cname ename [] [] []).scenarios =
        [⟨"Successful call to " ++ ename,
          [⟨"Given", "valid input for " ++ ename⟩,
           ⟨"When", "the API is called"⟩,
           ⟨"Then", "the response should indicate success"⟩]⟩]) ∧
    (∀ (a : Analysis) (output_dir : String),
      generate_bdd_features a output_dir = specOutputs a output_dir) := by
  have h1 : ∀ (c : Controller) (e : Endpoint)
      (dtos validations exceptions service_calls : List String),
      scenario_for_endpoint c e dtos validations exceptions service_calls =
        renderFeature (specFeature c.name e.name validations exceptions service_calls) := by
    intro c e dtos v x s
    unfold scenario_for_endpoint renderFeature
    refine congrArg pyJoinNl ?_
    show scenario_lines c e v x s = _
    simp only [specFeature, List.flatMap_cons, List.flatMap_append, flatMap_map_eq]
    unfold scenario_lines
    rfl
  refine ⟨h1, fun cname ename => rfl, ?_⟩
  intro a output_dir
  unfold generate_bdd_features specOutputs
  refine congrArg a.controllers.flatMap ?_
  funext c
  refine List.map_congr_left ?_
  intro e _
  exact congrArg _ (h1 c e a.dtos a.validations a.exceptions e.service_calls)

/-- C8.  The composed feature text does not depend on the `dtos` input:
`scenario_for_endpoint` gives identical output for any two `dtos`
sequences, and two analysis documents differing only in `dtos` generate
identical feature files; the composition is a pure function of its
inputs. -/
theorem claim_C8_dtos_noninterference :
    (∀ (c : Controller) (e : Endpoint) (validations exceptions service_calls d1 d2 : List String),
      scenario_for_endpoint c e d1 validations exceptions service_calls =
        scenario_for_endpoint c e d2 validations exceptions service_calls) ∧
    (∀ (a1 a2 : Analysis) (output_dir : String),
      a1.controllers = a2.controllers → a1.validations = a2.validations →
      a1.exceptions = a2.exceptions →
      generate_bdd_features a1 output_dir = generate_bdd_features a2 output_dir) := by
  constructor
  · intro c e v x s d1 d2
    rfl
  · intro a1 a2 output_dir h1 h2 h3
    unfold generate_bdd_features
    rw [h1, h2, h3]
    rfl

/-- Witness for C8 at concrete documents differing only in `dtos`. -/
theorem claim_C8_witness :
    generate_bdd_features ⟨[⟨"Order", [⟨"create", []⟩]⟩], ["DtoA"], [], []⟩ "features" =
      generate_bdd_features ⟨[⟨"Order", [⟨"create", []⟩]⟩], ["DtoB", "DtoC"], [], []⟩ "features" :=
  claim_C8_dtos_noninterference.2 _ _ _ rfl rfl rfl

set_option maxRecDepth 40000 in
/-- C1.  The claim states that a second pipeline run on an unchanged
analysis document and untouched step-definition store appends zero new
stubs.  The code violates this: extracted steps keep their keyword
(`Given valid input for create`) while the index scan returns bare
patterns (`valid input for create`, the regex group 2 only), so the set
difference never removes anything and the second run appends all three
steps again. -/
theorem claim_C1_second_run_appends_again :
    (runPipeline ⟨[⟨"Order", [⟨"create", []⟩]⟩], [], [], []⟩
        ((runPipeline ⟨[⟨"Order", [⟨"create", []⟩]⟩], [], [], []⟩ []).1)).2 = 3 ∧
    "Given valid input for create" ∉
      find_existing_step_defs
        (some ((runPipeline ⟨[⟨"Order", [⟨"create", []⟩]⟩], [], [], []⟩ []).1)) := by
  decide

set_option maxRecDepth 40000 in
/-- C2.  The claim states that an extracted step is covered whenever its
text after the keyword equals an indexed pattern, so scenario C (a store
registering exactly the positive scenario's three steps) yields a
missing-step set of size 0.  The code compares the full step line with
the bare pattern instead: the pattern `valid input for create` is indexed,
its step's text after the keyword equals it, yet the step stays missing
and the missing set has size 3. -/
theorem claim_C2_missing_set_not_empty :
    stepTextOf "Given valid input for create" ∈
      find_existing_step_defs (some [("StepDefinitions.java",
        generate_java_step_def "Given valid input for create" ++ "\n" ++
        generate_java_step_def "When the API is called" ++ "\n" ++
        generate_java_step_def "Then the response should indicate success" ++ "\n")]) ∧
    "Given valid input for create" ∈
      (extract_steps_from_feature (scenario_for_endpoint ⟨"Order", []⟩ ⟨"create", []⟩ [] [] [] []) \
        find_existing_step_defs (some [("StepDefinitions.java",
          generate_java_step_def "Given valid input for create" ++ "\n" ++
          generate_java_step_def "When the API is called" ++ "\n" ++
          generate_java_step_def "Then the response should indicate success" ++ "\n")])) ∧
    (extract_steps_from_feature (scenario_for_endpoint ⟨"Order", []⟩ ⟨"create", []⟩ [] [] [] []) \
        find_existing_step_defs (some [("StepDefinitions.java",
          generate_java_step_def "Given valid input for create" ++ "\n" ++
          generate_java_step_def "When the API is called" ++ "\n" ++
          generate_java_step_def "Then the response should indicate success" ++ "\n")])).card = 3 := by
  decide

/-- C7.  A step-definition root that does not exist contributes the empty
set to the index scan (`os.walk` yields no entries for it) and is
indistinguishable from an existing empty root — never a failure. -/
theorem claim_C7_missing_root_empty :
    find_existing_step_defs none = (∅ : Finset String) ∧
    find_existing_step_defs none = find_existing_step_defs (some []) := by
  decide

/-- C5 counterexample.  The claim says the identifier collapses every run
of consecutive non-alphanumeric characters to a single underscore; the
code replaces each such character by its own underscore, so the step
`Given a--b` yields `a__b`, not the claimed `a_b`. -/
theorem claim_C5_counterexample :
    methodNameOf "Given a--b" = "a__b" ∧
    collapseRuns (stepTextOf "Given a--b") = "a_b" ∧
    methodNameOf "Given a--b" ≠ collapseRuns (stepTextOf "Given a--b") := by
  decide

/-- C5 amended.  The stub's method identifier maps each character of the
pattern independently: an alphanumeric character becomes its lowercase
form, every other character becomes one underscore of its own (runs are
not collapsed). -/
theorem claim_C5_identifier_per_char (step : String) :
    (methodNameOf step).data =
      (stepTextOf step).data.map (fun c => if isAsciiAlnum c then c.toLower else '_') := by
  show ((stepTextOf step).data.map (fun c => if isAsciiAlnum c then c else '_')).map Char.toLower = _
  rw [List.map_map]
  apply List.map_congr_left
  intro c _
  by_cases h : isAsciiAlnum c
  · simp [h, Function.comp]
  · simp [h, Function.comp]

/-- Strings with equal character data are equal. -/
theorem str_ext (a b : String) (h : a.data = b.data) : a = b := by
  cases a
  cases b
  cases h
  rfl

/-- Scanning the stub generated for a step with one of the three keywords
and nonempty, quote-free text yields exactly that text as the registered
pattern. -/
theorem scan_generate (step : String)
    (hkw : annotOf step = "Given" ∨ annotOf step = "When" ∨ annotOf step = "Then")
    (hT : stepTextOf step ≠ "") (hq : ∀ a ∈ (stepTextOf step).data, a ≠ '"') :
    pyScanPatterns (generate_java_step_def step) = [stepTextOf step] := by
  have hdne : (stepTextOf step).data ≠ [] := fun h => hT (str_ext _ _ h)
  exact pyScanPatterns_stub (annotOf step) (stepTextOf step) (methodNameOf step)
    hkw hdne hq (methodName_no_quote step)

/-- C6 counterexample.  For the step `Given say "hi"` the pattern text
embedded in the registration clause is `say "hi"`, but the index scan of
the written stub finds nothing at all (the inner quotes break the
`([^"]+)"\)` tail of the regex), so the embedded pattern is not a member
of the scanned set. -/
theorem claim_C6_counterexample :
    annotOf "Given say \"hi\"" = "Given" ∧
    stepTextOf "Given say \"hi\"" = "say \"hi\"" ∧
    stepTextOf "Given say \"hi\"" ∉
      find_existing_step_defs
        (some [("StepDefinitions.java", generate_java_step_def "Given say \"hi\"")]) := by
  decide

/-- C6 amended.  For every step whose keyword is one of Given/When/Then
and whose text after the keyword is nonempty and free of double quotes,
the pattern text embedded in the written registration clause is a member
of the set the index scan returns for the resulting store. -/
theorem claim_C6_roundtrip_quote_free (step : String)
    (hkw : annotOf step = "Given" ∨ annotOf step = "When" ∨ annotOf step = "Then")
    (hT : stepTextOf step ≠ "") (hq : ∀ a ∈ (stepTextOf step).data, a ≠ '"') :
    stepTextOf step ∈
      find_existing_step_defs
        (some [("StepDefinitions.java", generate_java_step_def step)]) := by
  show stepTextOf step ∈ (pyScanPatterns (generate_java_step_def step) ++ []).toFinset
  rw [scan_generate step hkw hT hq]
  simp

/-- Witness for C6 at the concrete step `Given valid input for create`. -/
theorem claim_C6_witness :
    stepTextOf "Given valid input for create" ∈
      find_existing_step_defs
        (some [("StepDefinitions.java", generate_java_step_def "Given valid input for create")]) :=
  claim_C6_roundtrip_quote_free "Given valid input for create"
    (Or.inl (by decide)) (by decide) (by decide)

/-- C9 counterexample.  The claim's precondition (no double quote in the
text) is not sufficient: the bare step `Given` has empty, quote-free text,
yet scanning its stub `@Given("")` yields nothing (the regex requires a
nonempty pattern), so the scan does not yield the written text. -/
theorem claim_C9_counterexample :
    (∀ a ∈ (stepTextOf "Given").data, a ≠ '"') ∧
    pyScanPatterns ( generate_java_step_def "Given") = [] := by
  decide

/-- C9 amended.  For every step with a Given/When/Then keyword whose text
is nonempty and contains no double quote, scanning the generated stub
yields exactly that text as the indexed pattern; and for the step
`Given a") b`, whose text contains a double quote, the scan yields the
truncated pattern `a` instead of the written text. -/
theorem claim_C9_roundtrip_precondition :
    (∀ step : String,
      (annotOf step = "Given" ∨ annotOf step = "When" ∨ annotOf step = "Then") →
      stepTextOf step ≠ "" → (∀ a ∈ (stepTextOf step).data, a ≠ '"') →
      pyScanPatterns (generate_java_step_def step) = [stepTextOf step]) ∧
    (stepTextOf "Given a\") b" = "a\") b" ∧
     pyScanPatterns ( generate_java_step_def "Given a\") b") = ["a"] ∧
     ("a" : String) ≠ "a\") b") := by
  refine ⟨scan_generate, ?_⟩
  decide

/-- Witness for C9 at the concrete step `When the API is called`. -/
theorem claim_C9_witness :
    pyScanPatterns ( generate_java_step_def "When the API is called") = ["the API is called"] := by
  rw [claim_C9_roundtrip_precondition.1 "When the API is called"
    (Or.inr (Or.inl (by decide))) (by decide) (by decide)]
  decide

/-! Lemmas for the placeholder-removing substitution (claim C4). -/


theorem dropWhile_append_all {p : Char → Bool} {u : List Char} (v : List Char)
    (h : ∀ a ∈ u, p a) : (u ++ v).dropWhile p = v.dropWhile p := by
  induction u with
  | nil => rfl
  | cons b bs ih =>
    rw [List.cons_append, List.dropWhile_cons, if_pos (h b (List.mem_cons_self b bs))]
    exact ih (fun a ha => h a (List.mem_cons_of_mem b ha))

theorem dropWhile_append_ne_nil {p : Char → Bool} {u : List Char} (v : List Char)
    (h : u.dropWhile p ≠ []) : (u ++ v).dropWhile p = u.dropWhile p ++ v := by
  induction u with
  | nil => exact absurd rfl h
  | cons b bs ih =>
    simp only [List.cons_append, List.dropWhile_cons]
    rw [List.dropWhile_cons] at h
    by_cases hb : p b
    · simp only [if_pos hb]
      rw [if_pos hb] at h
      exact ih h
    · simp only [if_neg hb]
      rfl

theorem dropWhile_head_mem {p : Char → Bool} {u : List Char} {d : Char} {u2 : List Char}
    (h : u.dropWhile p = d :: u2) : d ∈ u := by
  induction u with
  | nil => exact absurd h (by simp)
  | cons b bs ih =>
    rw [List.dropWhile_cons] at h
    by_cases hb : p b
    · rw [if_pos hb] at h
      exact List.mem_cons_of_mem b (ih h)
    · rw [if_neg hb] at h
      injection h with h1 h2
      rw [← h1]
      exact List.mem_cons_self b bs

theorem dropWhile_head_not {p : Char → Bool} {u : List Char} {d : Char} {u2 : List Char}
    (h : u.dropWhile p = d :: u2) : ¬ p d := by
  induction u with
  | nil => exact absurd h (by simp)
  | cons b bs ih =>
    rw [List.dropWhile_cons] at h
    by_cases hb : p b
    · rw [if_pos hb] at h
      exact ih h
    · rw [if_neg hb] at h
      injection h with h1 h2
      rw [← h1]
      exact hb

theorem dropWhile_ne_nil_of_mem {p : Char → Bool} {u : List Char} {x : Char}
    (hx : x ∈ u) (hpx : ¬ p x) : u.dropWhile p ≠ [] := by
  induction u with
  | nil => cases hx
  | cons b bs ih =>
    rw [List.dropWhile_cons]
    by_cases hb : p b
    · rw [if_pos hb]
      rcases List.mem_cons.1 hx with h | h
      · exact absurd (h ▸ hb) hpx
      · exact ih h
    · rw [if_neg hb]
      simp

theorem all_of_dropWhile_nil {p : Char → Bool} {u : List Char}
    (h : u.dropWhile p = []) : ∀ a ∈ u, p a := by
  induction u with
  | nil => intro a ha; cases ha
  | cons b bs ih =>
    rw [List.dropWhile_cons] at h
    by_cases hb : p b
    · rw [if_pos hb] at h
      intro a ha
      rcases List.mem_cons.1 ha with h2 | h2
      · exact h2 ▸ hb
      · exact ih h a h2
    · rw [if_neg hb] at h
      cases h

theorem takeWhile_nil_head {p : Char → Bool} {d : Char} {l : List Char}
    (h : (d :: l).takeWhile p = []) : ¬ p d := by
  rw [List.takeWhile_cons] at h
  by_cases hd : p d
  · rw [if_pos hd] at h
    cases h
  · exact hd

theorem takeWhile_dropWhile_nil (p : Char → Bool) (l : List Char) :
    (l.dropWhile p).takeWhile p = [] := by
  cases hd : l.dropWhile p with
  | nil => rfl
  | cons d l2 =>
    rw [List.takeWhile_cons, if_neg (dropWhile_head_not hd)]

theorem tryPH_none_not_ws (c : Char) (cs : List Char) (h : ¬ isPySpace c) :
    tryPH (c :: cs) = none := by
  unfold tryPH
  rw [List.takeWhile_cons, if_neg h]
  rfl

theorem tryPH_none_after_ws (l : List Char)
    (h : ∀ d rest, l.dropWhile isPySpace = d :: rest → d ≠ '<') : tryPH l = none := by
  unfold tryPH
  by_cases he : (l.takeWhile isPySpace).isEmpty
  · rw [if_pos he]
  · rw [if_neg he]
    split
    · rename_i cs heq
      exact absurd rfl (h '<' cs heq)
    · rfl

theorem phTail_some {as : List Char} (h : ∀ x ∈ as, x ≠ '>') (rest : List Char) :
    phTail (as ++ '>' :: rest) = some rest := by
  induction as with
  | nil =>
    rw [List.nil_append]
    unfold phTail
    rw [if_pos rfl]
  | cons a as2 ih =>
    rw [List.cons_append]
    unfold phTail
    rw [if_neg (h a (List.mem_cons_self a as2))]
    exact ih (fun x hx => h x (List.mem_cons_of_mem a hx))

theorem phBody_some {content : List Char} (hne : content ≠ [])
    (h : ∀ x ∈ content, x ≠ '>') (rest : List Char) :
    phBody (content ++ '>' :: rest) = some rest := by
  cases content with
  | nil => exact absurd rfl hne
  | cons a as =>
    rw [List.cons_append]
    show (if a = '>' then none else phTail (as ++ '>' :: rest)) = some rest
    rw [if_neg (h a (List.mem_cons_self a as))]
    exact phTail_some (fun x hx => h x (List.mem_cons_of_mem a hx)) rest

theorem tryPH_some {w : List Char} (hw : w ≠ []) (hws : ∀ x ∈ w, isPySpace x)
    {content : List Char} (hc : content ≠ []) (hcgt : ∀ x ∈ content, x ≠ '>')
    (rest : List Char) :
    tryPH (w ++ '<' :: (content ++ '>' :: rest)) = some rest := by
  unfold tryPH
  rw [takeWhile_append_cons _ w '<' _ hws (by decide),
    dropWhile_append_cons _ w '<' _ hws (by decide)]
  have hwe : w.isEmpty = false := by
    cases w with
    | nil => exact absurd rfl hw
    | cons x xs => rfl
  rw [hwe]
  show phBody (content ++ '>' :: rest) = some rest
  exact phBody_some hc hcgt rest

theorem subAuxF_nil (f : Nat) : subAuxF f [] = [] := by
  cases f <;> rfl

theorem subAuxF_cons_eq (f : Nat) (c : Char) (cs : List Char) :
    subAuxF (f + 1) (c :: cs) =
      (match tryPH (c :: cs) with
       | some rest => subAuxF f rest
       | none => c :: subAuxF f cs) := rfl

theorem subAuxF_emit (xs y : List Char)
    (hsafe : ∀ t v, xs = t ++ v → v ≠ [] → tryPH (v ++ y) = none) :
    ∀ f, subAuxF (xs.length + f) (xs ++ y) = xs ++ subAuxF f y := by
  induction xs with
  | nil =>
    intro f
    simp
  | cons c xs2 ih =>
    intro f
    rw [show (c :: xs2).length + f = (xs2.length + f) + 1 by rw [List.length_cons]; omega]
    rw [List.cons_append, subAuxF_cons_eq]
    rw [show tryPH (c :: (xs2 ++ y)) = none from by
      have := hsafe [] (c :: xs2) rfl (by simp)
      rw [List.cons_append] at this
      exact this]
    rw [ih (fun t v hv hvne => hsafe (c :: t) v (by rw [hv, List.cons_append]) hvne) f]
    rfl

theorem emit_safe_of_core (xs y : List Char) (hlt : ∀ a ∈ xs, a ≠ '<')
    (hend : xs.reverse.takeWhile isPySpace = []) :
    ∀ t v, xs = t ++ v → v ≠ [] → tryPH (v ++ y) = none := by
  intro t v hxv hvne
  cases v with
  | nil => exact absurd rfl hvne
  | cons d v2 =>
    by_cases hd : isPySpace d
    · -- the whitespace run from here ends, inside xs, at a non-whitespace
      -- character of xs, which cannot be an opening bracket
      rw [List.cons_append]
      apply tryPH_none_after_ws
      intro e rest3 he
      rw [List.dropWhile_cons, if_pos hd] at he
      have hv2ne : v2.dropWhile isPySpace ≠ [] := by
        cases hv2r : v2.reverse with
        | nil =>
          exfalso
          have hv2 : v2 = [] := by
            have := congrArg List.reverse hv2r
            rwa [List.reverse_reverse] at this
          subst hv2
          rw [hxv, List.reverse_append] at hend
          rw [show ((d :: ([] : List Char)).reverse ++ t.reverse) = d :: t.reverse from rfl] at hend
          exact takeWhile_nil_head hend hd
        | cons h0 tl =>
          have hh0 : h0 ∈ v2 := by
            have : h0 ∈ v2.reverse := hv2r ▸ List.mem_cons_self h0 tl
            exact List.mem_reverse.1 this
          have hh0ws : ¬ isPySpace h0 := by
            rw [hxv] at hend
            rw [List.reverse_append, List.reverse_cons, hv2r] at hend
            rw [show (h0 :: tl) ++ [d] = h0 :: (tl ++ [d]) from rfl] at hend
            rw [show (h0 :: (tl ++ [d])) ++ t.reverse = h0 :: ((tl ++ [d]) ++ t.reverse) from rfl] at hend
            exact fun hws => (takeWhile_nil_head hend) hws
          exact dropWhile_ne_nil_of_mem hh0 hh0ws
      rw [dropWhile_append_ne_nil y hv2ne] at he
      cases hdw : v2.dropWhile isPySpace with
      | nil => exact absurd hdw hv2ne
      | cons e2 r2 =>
        rw [hdw, List.cons_append] at he
        injection he with he1 he2
        rw [← he1]
        have : e2 ∈ v2 := dropWhile_head_mem hdw
        exact hlt e2 (by rw [hxv]; exact List.mem_append_right t (List.mem_cons_of_mem d this))
    · exact tryPH_none_not_ws d (v2 ++ y) hd

theorem emit_safe_of_protected (xs : List Char) (d : Char) (y2 : List Char)
    (hlt : ∀ a ∈ xs, a ≠ '<') (hd1 : ¬ isPySpace d) (hd2 : d ≠ '<') :
    ∀ t v, xs = t ++ v → v ≠ [] → tryPH (v ++ (d :: y2)) = none := by
  intro t v hxv hvne
  cases v with
  | nil => exact absurd rfl hvne
  | cons e v2 =>
    by_cases he : isPySpace e
    · rw [List.cons_append]
      apply tryPH_none_after_ws
      intro e2 rest3 he2
      rw [List.dropWhile_cons, if_pos he] at he2
      by_cases hv2 : v2.dropWhile isPySpace = []
      · rw [dropWhile_append_all (d :: y2) (all_of_dropWhile_nil hv2)] at he2
        rw [List.dropWhile_cons, if_neg hd1] at he2
        injection he2 with h1 h2
        rw [← h1]
        exact hd2
      · rw [dropWhile_append_ne_nil (d :: y2) hv2] at he2
        cases hdw : v2.dropWhile isPySpace with
        | nil => exact absurd hdw hv2
        | cons e3 r3 =>
          rw [hdw, List.cons_append] at he2
          injection he2 with h1 h2
          rw [← h1]
          exact hlt e3 (by
            rw [hxv]
            exact List.mem_append_right t (List.mem_cons_of_mem e (dropWhile_head_mem hdw)))
    · exact tryPH_none_not_ws e (v2 ++ (d :: y2)) he

theorem subAuxF_all (xs : List Char) (hlt : ∀ a ∈ xs, a ≠ '<') :
    ∀ f, subAuxF (xs.length + f) xs = xs := by
  have hsafe : ∀ t v, xs = t ++ v → v ≠ [] → tryPH (v ++ ([] : List Char)) = none := by
    intro t v hxv hvne
    rw [List.append_nil]
    cases v with
    | nil => exact absurd rfl hvne
    | cons e v2 =>
      by_cases he : isPySpace e
      · apply tryPH_none_after_ws
        intro e2 rest3 he2
        rw [List.dropWhile_cons, if_pos he] at he2
        cases hdw : v2.dropWhile isPySpace with
        | nil => rw [hdw] at he2; cases he2
        | cons e3 r3 =>
          rw [hdw] at he2
          injection he2 with h1 h2
          rw [← h1]
          exact hlt e3 (by
            rw [hxv]
            exact List.mem_append_right t (List.mem_cons_of_mem e (dropWhile_head_mem hdw)))
      · exact tryPH_none_not_ws e v2 he
  intro f
  have := subAuxF_emit xs [] hsafe f
  rwa [List.append_nil, subAuxF_nil, List.append_nil] at this

theorem subAuxF_match (w content rest : List Char) (hw : w ≠ [])
    (hws : ∀ x ∈ w, isPySpace x) (hc : content ≠ []) (hcgt : ∀ x ∈ content, x ≠ '>') :
    ∀ f, subAuxF (f + 1) (w ++ '<' :: (content ++ '>' :: rest)) = subAuxF f rest := by
  intro f
  cases w with
  | nil => exact absurd rfl hw
  | cons c w2 =>
    rw [List.cons_append, subAuxF_cons_eq]
    rw [show tryPH (c :: (w2 ++ '<' :: (content ++ '>' :: rest))) = some rest from by
      have := tryPH_some (w := c :: w2) (by simp) hws hc hcgt rest
      rwa [List.cons_append] at this]

theorem lit_split (l : List Char) :
    l = (l.reverse.dropWhile isPySpace).reverse ++ (l.reverse.takeWhile isPySpace).reverse := by
  conv_lhs => rw [← List.reverse_reverse l,
    ← List.takeWhile_append_dropWhile (p := isPySpace) (l := l.reverse)]
  rw [List.reverse_append]

theorem run_all_ws (l : List Char) :
    ∀ x ∈ (l.reverse.takeWhile isPySpace).reverse, isPySpace x := by
  intro x hx
  exact List.mem_takeWhile_imp (List.mem_reverse.1 hx)

theorem core_end_not_ws (l : List Char) :
    ((l.reverse.dropWhile isPySpace).reverse).reverse.takeWhile isPySpace = [] := by
  rw [List.reverse_reverse]
  exact takeWhile_dropWhile_nil _ _

theorem segsWF_cons {x : Seg} {l : List Seg} (h : segsWF (x :: l) = true) :
    segWF x = true ∧ segsWF l = true := by
  rw [show segsWF (x :: l) = (segWF x && segsWF l) from rfl, Bool.and_eq_true] at h
  exact h

theorem segWF_ph {c : String} (h : segWF (.ph c) = true) :
    c.data ≠ [] ∧ (∀ a ∈ c.data, a ≠ '<') ∧ (∀ a ∈ c.data, a ≠ '>') := by
  rw [show segWF (.ph c) = (!c.data.isEmpty && c.data.all (fun d => d ≠ '<' && d ≠ '>')) from rfl,
    Bool.and_eq_true] at h
  refine ⟨?_, ?_, ?_⟩
  · intro hc
    rw [hc] at h
    exact Bool.noConfusion h.1
  · intro a ha
    have := (List.all_eq_true.1 h.2) a ha
    rw [Bool.and_eq_true] at this
    simpa using this.1
  · intro a ha
    have := (List.all_eq_true.1 h.2) a ha
    rw [Bool.and_eq_true] at this
    simpa using this.2

theorem segWF_lit {t : String} (h : segWF (.lit t) = true) :
    (∀ a ∈ t.data, a ≠ '<') ∧ (∀ a ∈ t.data, a ≠ '>') := by
  rw [show segWF (.lit t) = t.data.all (fun d => d ≠ '<' && d ≠ '>') from rfl] at h
  constructor
  · intro a ha
    have := (List.all_eq_true.1 h) a ha
    rw [Bool.and_eq_true] at this
    simpa using this.1
  · intro a ha
    have := (List.all_eq_true.1 h) a ha
    rw [Bool.and_eq_true] at this
    simpa using this.2

theorem subAuxF_render : ∀ (segs : List Seg), segsWF segs = true → noTwoLits segs = true →
    ∀ f, (renderSegs segs).length ≤ f → subAuxF f (renderSegs segs) = specNorm segs
  | [] => by
    intro _ _ f _
    rw [show renderSegs [] = [] from rfl, subAuxF_nil]
    rfl
  | .ph c :: rest => by
    intro hwf hadj f hf
    obtain ⟨hwfc, hwfrest⟩ := segsWF_cons hwf
    obtain ⟨hcne, hclt, hcgt⟩ := segWF_ph hwfc
    have hadjrest : noTwoLits rest = true := hadj
    rw [show renderSegs (.ph c :: rest) = '<' :: (c.data ++ '>' :: renderSegs rest) from rfl]
      at hf ⊢
    rw [show specNorm (.ph c :: rest) = '<' :: (c.data ++ '>' :: specNorm rest) from rfl]
    rw [List.length_cons, List.length_append, List.length_cons] at hf
    cases f with
    | zero => omega
    | succ f1 =>
      rw [subAuxF_cons_eq, tryPH_none_not_ws '<' _ (by decide)]
      refine congrArg (List.cons '<') ?_
      rw [show f1 = c.data.length + (f1 - c.data.length) from by omega]
      rw [subAuxF_emit c.data ('>' :: renderSegs rest)
        (emit_safe_of_protected c.data '>' (renderSegs rest) hclt (by decide) (by decide))]
      refine congrArg (fun z => c.data ++ z) ?_
      cases hg : f1 - c.data.length with
      | zero => omega
      | succ g =>
        rw [subAuxF_cons_eq, tryPH_none_not_ws '>' _ (by decide)]
        refine congrArg (List.cons '>') ?_
        exact subAuxF_render rest hwfrest hadjrest g (by omega)
  | .lit s :: .ph c :: rest => by
    intro hwf hadj f hf
    obtain ⟨hwfs, hwfrest2⟩ := segsWF_cons hwf
    obtain ⟨hwfc, hwfrest⟩ := segsWF_cons hwfrest2
    obtain ⟨hcne, hclt, hcgt⟩ := segWF_ph hwfc
    obtain ⟨hslt, hsgt⟩ := segWF_lit hwfs
    have hadjrest : noTwoLits rest = true := hadj
    rw [show renderSegs (.lit s :: .ph c :: rest) =
      s.data ++ ('<' :: (c.data ++ '>' :: renderSegs rest)) from rfl] at hf ⊢
    rw [List.length_append, List.length_cons, List.length_append, List.length_cons] at hf
    by_cases hws : endsInWs s = true
    · rw [show specNorm (.lit s :: .ph c :: rest) =
        (if endsInWs s then dropTrailingWs s.data ++ specNorm rest
         else s.data ++ ('<' :: (c.data ++ '>' :: specNorm rest))) from rfl, if_pos hws]
      have hrun_ne : (s.data.reverse.takeWhile isPySpace).reverse ≠ [] := by
        intro h
        have h2 := congrArg List.reverse h
        rw [List.reverse_reverse] at h2
        unfold endsInWs at hws
        rw [h2] at hws
        exact Bool.noConfusion hws
      have hlensplit : ((s.data.reverse.dropWhile isPySpace).reverse).length +
          ((s.data.reverse.takeWhile isPySpace).reverse).length = s.data.length := by
        conv_rhs => rw [lit_split s.data]
        rw [List.length_append]
      have hcore_lt : ∀ a ∈ (s.data.reverse.dropWhile isPySpace).reverse, a ≠ '<' := by
        intro a ha
        refine hslt a ?_
        rw [lit_split s.data]
        exact List.mem_append_left _ ha
      conv_lhs => rw [lit_split s.data]
      rw [List.append_assoc]
      rw [show f = ((s.data.reverse.dropWhile isPySpace).reverse).length +
        (f - ((s.data.reverse.dropWhile isPySpace).reverse).length) from by omega]
      rw [subAuxF_emit _ _
        (emit_safe_of_core _ _ hcore_lt (core_end_not_ws s.data))]
      refine congrArg (fun z => (s.data.reverse.dropWhile isPySpace).reverse ++ z) ?_
      cases hg : f - ((s.data.reverse.dropWhile isPySpace).reverse).length with
      | zero => omega
      | succ g =>
        rw [subAuxF_match _ _ _ hrun_ne (run_all_ws s.data) hcne hcgt g]
        refine subAuxF_render rest hwfrest hadjrest g ?_
        omega
    · rw [show specNorm (.lit s :: .ph c :: rest) =
        (if endsInWs s then dropTrailingWs s.data ++ specNorm rest
         else s.data ++ ('<' :: (c.data ++ '>' :: specNorm rest))) from rfl, if_neg hws]
      have hend : s.data.reverse.takeWhile isPySpace = [] := by
        unfold endsInWs at hws
        cases h : s.data.reverse.takeWhile isPySpace with
        | nil => rfl
        | cons x xs =>
          rw [h] at hws
          exact absurd rfl hws
      rw [show f = s.data.length + (f - s.data.length) from by omega]
      rw [subAuxF_emit s.data ('<' :: (c.data ++ '>' :: renderSegs rest))
        (emit_safe_of_core s.data _ hslt hend)]
      refine congrArg (fun z => s.data ++ z) ?_
      refine subAuxF_render (.ph c :: rest) hwfrest2 hadjrest (f - s.data.length) ?_
      rw [show renderSegs (.ph c :: rest) = '<' :: (c.data ++ '>' :: renderSegs rest) from rfl,
        List.length_cons, List.length_append, List.length_cons]
      omega
  | [.lit s] => by
    intro hwf hadj f hf
    obtain ⟨hwfs, _⟩ := segsWF_cons hwf
    obtain ⟨hslt, hsgt⟩ := segWF_lit hwfs
    rw [show renderSegs [.lit s] = s.data ++ [] from rfl] at hf ⊢
    rw [show specNorm [.lit s] = s.data ++ [] from rfl]
    rw [List.append_nil] at hf ⊢
    rw [show f = s.data.length + (f - s.data.length) from by omega]
    exact subAuxF_all s.data hslt _
  | .lit s :: .lit t :: rest => by
    intro _ hadj
    exact absurd hadj (by simp [noTwoLits])


theorem splitAux_not_lb (c : Char) (h : ¬ isLineBreak c = true) (rest acc : List Char) :
    splitAux (c :: rest) acc = splitAux rest (c :: acc) := by
  have hr : c ≠ '\r' := fun hh => h (by rw [hh]; decide)
  conv_lhs => unfold splitAux
  rw [if_neg hr, if_neg h]

theorem splitAux_nl (rest acc : List Char) :
    splitAux ('\n' :: rest) acc = String.mk acc.reverse :: splitAux rest [] := by
  conv_lhs => unfold splitAux
  rw [if_neg (by decide : ¬ ('\n' = '\r')), if_pos (by decide : isLineBreak '\n' = true)]

theorem isEmpty_reverse_ch (l : List Char) : l.reverse.isEmpty = l.isEmpty := by
  cases l with
  | nil => rfl
  | cons c cs =>
    rw [List.reverse_cons]
    cases h : (cs.reverse ++ [c]).isEmpty
    · rfl
    · rw [List.isEmpty_iff] at h
      exact absurd h (by simp)

theorem splitAux_line (xs : List Char) (h : ∀ a ∈ xs, ¬ isLineBreak a = true)
    (rest : List Char) : ∀ acc : List Char,
    splitAux (xs ++ '\n' :: rest) acc = String.mk (acc.reverse ++ xs) :: splitAux rest [] := by
  induction xs with
  | nil =>
    intro acc
    rw [List.nil_append, splitAux_nl, List.append_nil]
  | cons c xs2 ih =>
    intro acc
    rw [List.cons_append, splitAux_not_lb c (h c (List.mem_cons_self c xs2))]
    rw [ih (fun a ha => h a (List.mem_cons_of_mem c ha)) (c :: acc)]
    rw [List.reverse_cons, List.append_assoc]
    rfl

theorem splitAux_last (xs : List Char) (h : ∀ a ∈ xs, ¬ isLineBreak a = true) :
    ∀ acc : List Char,
    splitAux xs acc =
      (if (acc.reverse ++ xs).isEmpty then [] else [String.mk (acc.reverse ++ xs)]) := by
  induction xs with
  | nil =>
    intro acc
    show (if acc.isEmpty = true then [] else [String.mk acc.reverse]) = _
    rw [List.append_nil, isEmpty_reverse_ch]
  | cons c xs2 ih =>
    intro acc
    rw [splitAux_not_lb c (h c (List.mem_cons_self c xs2))]
    rw [ih (fun a ha => h a (List.mem_cons_of_mem c ha)) (c :: acc)]
    rw [List.reverse_cons, List.append_assoc]
    have hne : ((acc.reverse ++ (c :: xs2)).isEmpty) = false := by
      cases hx : (acc.reverse ++ (c :: xs2)).isEmpty
      · rfl
      · rw [List.isEmpty_iff] at hx
        exact absurd hx (by simp)
    rw [List.singleton_append, hne]

theorem foldl_stepIns_join : ∀ (L : List String), (∀ l ∈ L, noLB l = true) →
    ∀ s : Finset String, (pySplitlines (pyJoinNl L)).foldl stepIns s = L.foldl stepIns s
  | [] => by
    intro _ s
    rfl
  | [l] => by
    intro h s
    show (pySplitlines l).foldl stepIns s = _
    unfold pySplitlines
    rw [splitAux_last l.data (by
      intro a ha
      have := h l (List.mem_cons_self l []) 
      rw [noLB, List.all_eq_true] at this
      simpa using this a ha) []]
    rw [List.reverse_nil, List.nil_append]
    cases hl : l.data.isEmpty
    · rfl
    · rw [List.isEmpty_iff] at hl
      show s = List.foldl stepIns s [l]
      rw [show l = String.mk [] from str_ext _ _ hl]
      rfl
  | l :: l2 :: rest => by
    intro h s
    have hdata : (pyJoinNl (l :: l2 :: rest)).data =
        l.data ++ '\n' :: (pyJoinNl (l2 :: rest)).data := by
      show (l ++ "\n" ++ pyJoinNl (l2 :: rest)).data = _
      rw [data_append_str, data_append_str, List.append_assoc]
      rfl
    show (pySplitlines (pyJoinNl (l :: l2 :: rest))).foldl stepIns s = _
    unfold pySplitlines
    rw [hdata, splitAux_line l.data (by
      intro a ha
      have := h l (List.mem_cons_self l _)
      rw [noLB, List.all_eq_true] at this
      simpa using this a ha) _ []]
    rw [List.reverse_nil, List.nil_append]
    show List.foldl stepIns (stepIns s l) (splitAux (pyJoinNl (l2 :: rest)).data []) = _
    have := foldl_stepIns_join (l2 :: rest)
      (fun x hx => h x (List.mem_cons_of_mem l hx)) (stepIns s l)
    exact this

theorem wsPrecededAux_ph {c : String} {rest : List Seg}
    (h : wsPrecededAux (.ph c) rest = true) : wsPreceded rest = true := by
  cases rest with
  | nil => rfl
  | cons x r =>
    cases x with
    | lit t =>
      rw [show wsPrecededAux (.ph c) (.lit t :: r) = (true && wsPrecededAux (.lit t) r) from rfl,
        Bool.true_and] at h
      exact h
    | ph d =>
      rw [show wsPrecededAux (.ph c) (.ph d :: r) = (false && wsPrecededAux (.ph d) r) from rfl,
        Bool.false_and] at h
      exact Bool.noConfusion h

theorem specNorm_indep : ∀ (l1 l2 : List Seg), sameShape l1 l2 = true →
    noTwoLits l1 = true → wsPreceded l1 = true → specNorm l1 = specNorm l2
  | [], [] => fun _ _ _ => rfl
  | [], x :: r => by
    intro hs _ _
    exact absurd hs (by cases x <;> simp [sameShape])
  | .ph c :: r1, l2 => by
    intro _ _ hw
    exact absurd hw (by simp [wsPreceded])
  | .lit s :: .lit t :: r1, l2 => by
    intro _ hadj _
    exact absurd hadj (by simp [noTwoLits])
  | [.lit s], [] => by
    intro hs _ _
    exact absurd hs (by simp [sameShape])
  | [.lit s], .ph d :: r2 => by
    intro hs _ _
    exact absurd hs (by simp [sameShape])
  | [.lit s], .lit t :: r2 => by
    intro hs _ _
    rw [show sameShape [.lit s] (.lit t :: r2) = (s == t && sameShape [] r2) from rfl,
      Bool.and_eq_true, beq_iff_eq] at hs
    obtain ⟨rfl, hs2⟩ := hs
    cases r2 with
    | nil => rfl
    | cons x r3 => exact absurd hs2 (by cases x <;> simp [sameShape])
  | .lit s :: .ph c :: r1, [] => by
    intro hs _ _
    exact absurd hs (by simp [sameShape])
  | .lit s :: .ph c :: r1, .ph d :: r2 => by
    intro hs _ _
    exact absurd hs (by simp [sameShape])
  | .lit s :: .ph c :: r1, .lit t :: r2 => by
    intro hs hadj hw
    rw [show sameShape (.lit s :: .ph c :: r1) (.lit t :: r2) =
      (s == t && sameShape (.ph c :: r1) r2) from rfl, Bool.and_eq_true, beq_iff_eq] at hs
    obtain ⟨rfl, hs2⟩ := hs
    have hws : endsInWs s = true ∧ wsPrecededAux (.ph c) r1 = true := by
      rw [show wsPreceded (.lit s :: .ph c :: r1) =
        wsPrecededAux (.lit s) (.ph c :: r1) from rfl] at hw
      rw [show wsPrecededAux (.lit s) (.ph c :: r1) =
        (endsInWs s && wsPrecededAux (.ph c) r1) from rfl, Bool.and_eq_true] at hw
      exact hw
    cases r2 with
    | nil => exact absurd hs2 (by simp [sameShape])
    | cons x r3 =>
      cases x with
      | lit u => exact absurd hs2 (by simp [sameShape])
      | ph d =>
        rw [show sameShape (.ph c :: r1) (.ph d :: r3) = sameShape r1 r3 from rfl] at hs2
        rw [show specNorm (.lit s :: .ph c :: r1) =
          (if endsInWs s then dropTrailingWs s.data ++ specNorm r1
           else s.data ++ ('<' :: (c.data ++ '>' :: specNorm r1))) from rfl, if_pos hws.1]
        rw [show specNorm (.lit s :: .ph d :: r3) =
          (if endsInWs s then dropTrailingWs s.data ++ specNorm r3
           else s.data ++ ('<' :: (d.data ++ '>' :: specNorm r3))) from rfl, if_pos hws.1]
        refine congrArg (fun z => dropTrailingWs s.data ++ z) ?_
        exact specNorm_indep r1 r3 hs2 hadj (wsPrecededAux_ph hws.2)

theorem claim_C4_counterexample :
    pySubPH "Given a  <x>" = "Given a" ∧
    extract_steps_from_feature "Given a  <x>" = {"Given a"} ∧
    ("Given a " : String) ∉ extract_steps_from_feature "Given a  <x>" := by
  decide

theorem claim_C4_normalization :
    (∀ segs : List Seg, segsWF segs = true → noTwoLits segs = true →
      pySubPH (String.mk (renderSegs segs)) = String.mk (specNorm segs)) ∧
    (∀ segs1 segs2 : List Seg, segsWF segs1 = true → segsWF segs2 = true →
      noTwoLits segs1 = true → noTwoLits segs2 = true → wsPreceded segs1 = true →
      sameShape segs1 segs2 = true →
      pySubPH (String.mk (renderSegs segs1)) = pySubPH (String.mk (renderSegs segs2))) ∧
    (∀ l1 l2 : String, noLB l1 = true → noLB l2 = true →
      ∀ st : String, lineStep l1 = some st → lineStep l2 = some st →
      extract_steps_from_feature (l1 ++ "\n" ++ l2) = {st}) := by
  have hmain : ∀ segs : List Seg, segsWF segs = true → noTwoLits segs = true →
      pySubPH (String.mk (renderSegs segs)) = String.mk (specNorm segs) := by
    intro segs hwf hadj
    show String.mk (subAuxF (renderSegs segs).length (renderSegs segs)) = _
    exact congrArg String.mk (subAuxF_render segs hwf hadj _ (Nat.le_refl _))
  refine ⟨hmain, ?_, ?_⟩
  · intro segs1 segs2 hwf1 hwf2 hadj1 hadj2 hwp hs
    rw [hmain segs1 hwf1 hadj1, hmain segs2 hwf2 hadj2]
    exact congrArg String.mk (specNorm_indep segs1 segs2 hs hadj1 hwp)
  · intro l1 l2 h1 h2 st hst1 hst2
    show (pySplitlines (pyJoinNl [l1, l2])).foldl stepIns ∅ = {st}
    rw [foldl_stepIns_join [l1, l2] (by
      intro l hl
      rcases List.mem_cons.1 hl with rfl | hl2
      · exact h1
      · rcases List.mem_cons.1 hl2 with rfl | hl3
        · exact h2
        · cases hl3) ∅]
    show stepIns (stepIns ∅ l1) l2 = {st}
    unfold stepIns
    rw [hst1, hst2]
    exact Finset.insert_idem st ∅

/-- Witness for C4 at a concrete decomposition: the line
`Given color  <c>` (one literal with a trailing two-space run, one
placeholder) normalizes by dropping the placeholder and the whole run. -/
theorem claim_C4_witness :
    pySubPH (String.mk (renderSegs [.lit "Given color  ", .ph "c"])) =
      String.mk (specNorm [.lit "Given color  ", .ph "c"]) :=
  claim_C4_normalization.1 [.lit "Given color  ", .ph "c"] (by decide) (by decide)

end BddGen

namespace BddGen

theorem append_eq_mk (a b : String) : a ++ b = String.mk (a.data ++ b.data) := by
  cases a
  cases b
  rfl

theorem pySubPH_no_lt (body : List Char) (hlt : ∀ a ∈ body, a ≠ '<') :
    pySubPH (String.mk body) = String.mk body := by
  show String.mk (subAuxF body.length body) = _
  have h := subAuxF_all body hlt 0
  rw [Nat.add_zero] at h
  exact congrArg String.mk h

theorem pyStrip_of_split (raw : String) (pre body : List Char)
    (hsplit : raw.data = pre ++ body) (hpre : ∀ a ∈ pre, isPySpace a)
    (hne : body ≠ []) (hh : isPySpace (body.headD 'a') = false)
    (hlast : ∀ d t, body.reverse = d :: t → ¬ isPySpace d) :
    pyStrip raw = String.mk body := by
  unfold pyStrip
  rw [hsplit, dropWhile_append_all _ hpre]
  cases body with
  | nil => exact absurd rfl hne
  | cons d b =>
    rw [List.dropWhile_cons, if_neg (by simpa using hh)]
    refine congrArg String.mk ?_
    cases hrev : (d :: b).reverse with
    | nil => exact absurd hrev (by simp)
    | cons e t =>
      rw [List.dropWhile_cons, if_neg (hlast e t hrev)]
      rw [← hrev, List.reverse_reverse]

theorem lineStep_some_of_split (raw : String) (pre body : List Char)
    (hsplit : raw.data = pre ++ body) (hpre : ∀ a ∈ pre, isPySpace a)
    (hne : body ≠ []) (hh : isPySpace (body.headD 'a') = false)
    (hlast : ∀ d t, body.reverse = d :: t → ¬ isPySpace d)
    (hlt : ∀ a ∈ body, a ≠ '<')
    (hcand : (pyStartsWith (String.mk body) "Given " ||
              pyStartsWith (String.mk body) "When " ||
              pyStartsWith (String.mk body) "Then ") = true) :
    lineStep raw = some (String.mk body) := by
  unfold lineStep
  show (if pyStartsWith (pyStrip raw) "Given " || pyStartsWith (pyStrip raw) "When " ||
      pyStartsWith (pyStrip raw) "Then " then some (pySubPH (pyStrip raw)) else none) =
    some (String.mk body)
  rw [pyStrip_of_split raw pre body hsplit hpre hne hh hlast, hcand, if_pos rfl]
  exact congrArg some (pySubPH_no_lt body hlt)

theorem strip_head (raw : String) (pre : List Char) (d : Char) (b : List Char)
    (hsplit : raw.data = pre ++ d :: b) (hpre : ∀ a ∈ pre, isPySpace a)
    (hd : ¬ isPySpace d) : ∃ t, (pyStrip raw).data = d :: t := by
  unfold pyStrip
  rw [hsplit, dropWhile_append_all _ hpre, List.dropWhile_cons, if_neg hd]
  rw [show (d :: b).reverse = b.reverse ++ [d] from by rw [List.reverse_cons]]
  by_cases hbw : b.reverse.dropWhile isPySpace = []
  · rw [dropWhile_append_all [d] (all_of_dropWhile_nil hbw)]
    rw [List.dropWhile_cons, if_neg hd]
    exact ⟨[], rfl⟩
  · rw [dropWhile_append_ne_nil [d] hbw]
    cases hdw : b.reverse.dropWhile isPySpace with
    | nil => exact absurd hdw hbw
    | cons e t2 =>
      exact ⟨(e :: t2).reverse, by rw [List.reverse_append]; rfl⟩

theorem lineStep_none_of_split (raw : String) (pre : List Char) (d : Char) (b : List Char)
    (hsplit : raw.data = pre ++ d :: b) (hpre : ∀ a ∈ pre, isPySpace a)
    (hd : ¬ isPySpace d) (h1 : d ≠ 'G') (h2 : d ≠ 'W') (h3 : d ≠ 'T') :
    lineStep raw = none := by
  obtain ⟨t, ht⟩ := strip_head raw pre d b hsplit hpre hd
  unfold lineStep
  show (if pyStartsWith (pyStrip raw) "Given " || pyStartsWith (pyStrip raw) "When " ||
      pyStartsWith (pyStrip raw) "Then " then some (pySubPH (pyStrip raw)) else none) = none
  have hfalse : ∀ (k : Char) (kr : List Char), k ≠ d →
      (k :: kr).isPrefixOf (pyStrip raw).data = false := by
    intro k kr hk
    rw [ht]
    rw [show (k :: kr).isPrefixOf (d :: t) = (k == d && kr.isPrefixOf t) from rfl]
    simp [hk]
  rw [show pyStartsWith (pyStrip raw) "Given " =
    ("Given ".data).isPrefixOf (pyStrip raw).data from rfl]
  rw [show pyStartsWith (pyStrip raw) "When " =
    ("When ".data).isPrefixOf (pyStrip raw).data from rfl]
  rw [show pyStartsWith (pyStrip raw) "Then " =
    ("Then ".data).isPrefixOf (pyStrip raw).data from rfl]
  rw [show ("Given ".data) = 'G' :: "iven ".data from rfl,
    show ("When ".data) = 'W' :: "hen ".data from rfl,
    show ("Then ".data) = 'T' :: "hen ".data from rfl]
  rw [hfalse 'G' _ (fun h => h1 h.symm), hfalse 'W' _ (fun h => h2 h.symm),
    hfalse 'T' _ (fun h => h3 h.symm)]
  rfl

theorem foldl_stepIns_filterMap (lines : List String) : ∀ s : Finset String,
    lines.foldl stepIns s = s ∪ (lines.filterMap lineStep).toFinset := by
  induction lines with
  | nil =>
    intro s
    simp
  | cons l ls ih =>
    intro s
    show List.foldl stepIns (stepIns s l) ls = _
    rw [ih (stepIns s l)]
    unfold stepIns
    cases h : lineStep l with
    | none => rw [List.filterMap_cons_none h]
    | some st =>
      rw [List.filterMap_cons_some h]
      rw [List.toFinset_cons]
      rw [Finset.union_insert, Finset.insert_union]

theorem filterMap_flatMap_list {α β γ : Type} (l : List α) (f : α → List β) (g : β → Option γ) :
    (l.flatMap f).filterMap g = l.flatMap (fun a => (f a).filterMap g) := by
  induction l with
  | nil => rfl
  | cons a t ih => simp [List.flatMap_cons, List.filterMap_append, ih]

theorem cleanLabel_spec {s : String} (h : cleanLabel s = true) :
    s.data ≠ [] ∧ (∀ a ∈ s.data, ¬ isLineBreak a = true ∧ a ≠ '<' ∧ a ≠ '>') ∧
    (∀ d t, s.data.reverse = d :: t → ¬ isPySpace d) := by
  unfold cleanLabel at h
  rw [Bool.and_eq_true, Bool.and_eq_true] at h
  obtain ⟨⟨h1, h2⟩, h3⟩ := h
  refine ⟨?_, ?_, ?_⟩
  · intro hc
    rw [hc] at h1
    exact Bool.noConfusion h1
  · intro a ha
    have := List.all_eq_true.1 h2 a ha
    rw [Bool.and_eq_true, Bool.and_eq_true] at this
    refine ⟨?_, by simpa using this.1.2, by simpa using this.2⟩
    simpa using this.1.1
  · intro d t hdt
    rw [hdt] at h3
    intro hws
    rw [show (d :: t).headD 'a' = d from rfl, hws] at h3
    exact Bool.noConfusion h3

theorem lineStep_step4 (body0 : List Char) (en : String) (hen : cleanLabel en = true)
    (hh : isPySpace ((body0 ++ en.data).headD 'a') = false)
    (hlt0 : ∀ a ∈ body0, a ≠ '<')
    (hcand : (pyStartsWith (String.mk (body0 ++ en.data)) "Given " ||
              pyStartsWith (String.mk (body0 ++ en.data)) "When " ||
              pyStartsWith (String.mk (body0 ++ en.data)) "Then ") = true)
    (raw : String) (hraw : raw.data = [' ', ' ', ' ', ' '] ++ (body0 ++ en.data)) :
    lineStep raw = some (String.mk (body0 ++ en.data)) := by
  obtain ⟨hne, hall, hlast⟩ := cleanLabel_spec hen
  refine lineStep_some_of_split raw _ _ hraw (by decide) ?_ hh ?_ ?_ hcand
  · exact fun hc => hne (List.append_eq_nil.1 hc).2
  · intro d t hdt
    rw [List.reverse_append] at hdt
    cases hrev : en.data.reverse with
    | nil =>
      refine absurd ?_ hne
      rw [← List.reverse_reverse en.data, hrev]
      rfl
    | cons e0 t0 =>
      rw [hrev, List.cons_append] at hdt
      injection hdt with h1 h2
      rw [← h1]
      exact hlast e0 t0 hrev
  · intro a ha
    rcases List.mem_append.1 ha with h | h
    · exact hlt0 a h
    · exact ((hall a h).2).1

theorem lineStep_pG (en : String) (hen : cleanLabel en = true) :
    lineStep ("    Given valid input for " ++ en) =
      some (String.mk ("Given valid input for ".data ++ en.data)) :=
  lineStep_step4 "Given valid input for ".data en hen rfl (by decide) rfl _
    (by rw [append_eq_mk]; rfl)

theorem lineStep_gv (v : String) (hv : cleanLabel v = true) :
    lineStep ("    Given invalid input that triggers " ++ v) =
      some (String.mk ("Given invalid input that triggers ".data ++ v.data)) :=
  lineStep_step4 "Given invalid input that triggers ".data v hv rfl (by decide) rfl _
    (by rw [append_eq_mk]; rfl)

theorem lineStep_tv (v : String) (hv : cleanLabel v = true) :
    lineStep ("    Then the response should indicate a validation error for " ++ v) =
      some (String.mk ("Then the response should indicate a validation error for ".data ++ v.data)) :=
  lineStep_step4 "Then the response should indicate a validation error for ".data v hv rfl (by decide) rfl _
    (by rw [append_eq_mk]; rfl)

theorem lineStep_gx (x : String) (hx : cleanLabel x = true) :
    lineStep ("    Given a situation that causes " ++ x) =
      some (String.mk ("Given a situation that causes ".data ++ x.data)) :=
  lineStep_step4 "Given a situation that causes ".data x hx rfl (by decide) rfl _
    (by rw [append_eq_mk]; rfl)

theorem lineStep_tx (x : String) (hx : cleanLabel x = true) :
    lineStep ("    Then the response should indicate an error for " ++ x) =
      some (String.mk ("Then the response should indicate an error for ".data ++ x.data)) :=
  lineStep_step4 "Then the response should indicate an error for ".data x hx rfl (by decide) rfl _
    (by rw [append_eq_mk]; rfl)

theorem lineStep_gs (sc : String) (hs : cleanLabel sc = true) :
    lineStep ("    Given the API depends on " ++ sc) =
      some (String.mk ("Given the API depends on ".data ++ sc.data)) :=
  lineStep_step4 "Given the API depends on ".data sc hs rfl (by decide) rfl _
    (by rw [append_eq_mk]; rfl)

theorem lineStep_ts (sc : String) (hs : cleanLabel sc = true) :
    lineStep ("    Then the response should reflect the result of " ++ sc) =
      some (String.mk ("Then the response should reflect the result of ".data ++ sc.data)) :=
  lineStep_step4 "Then the response should reflect the result of ".data sc hs rfl (by decide) rfl _
    (by rw [append_eq_mk]; rfl)

theorem lineStep_W :
    lineStep "    When the API is called" = some "When the API is called" := by
  decide

theorem lineStep_pT :
    lineStep "    Then the response should indicate success" =
      some "Then the response should indicate success" := by
  decide

theorem lineStep_blank : lineStep "" = none := rfl

theorem noLB_append_intro {a b : String} (ha : noLB a = true) (hb : noLB b = true) :
    noLB (a ++ b) = true := by
  rw [append_eq_mk]
  unfold noLB at ha hb ⊢
  rw [show (String.mk (a.data ++ b.data)).data = a.data ++ b.data from rfl]
  rw [List.all_append, ha, hb]
  rfl

theorem cleanLabel_noLB {s : String} (h : cleanLabel s = true) : noLB s = true := by
  obtain ⟨_, hall, _⟩ := cleanLabel_spec h
  unfold noLB
  refine List.all_eq_true.2 ?_
  intro a ha
  simpa using (hall a ha).1

theorem scenario_lines_noLB (c : Controller) (e : Endpoint)
    (validations exceptions service_calls : List String)
    (hc : noLB c.name = true) (he : cleanLabel e.name = true)
    (hv : ∀ l ∈ validations, cleanLabel l = true)
    (hx : ∀ l ∈ exceptions, cleanLabel l = true)
    (hs : ∀ l ∈ service_calls, cleanLabel l = true) :
    ∀ l ∈ scenario_lines c e validations exceptions service_calls, noLB l = true := by
  intro l hl
  have hne : noLB e.name = true := cleanLabel_noLB he
  unfold scenario_lines at hl
  rcases List.mem_append.1 hl with hl1 | hl3
  rcases List.mem_append.1 hl1 with hl1 | hl2
  rcases List.mem_append.1 hl1 with hl0 | hl1
  · -- head block of seven lines
    simp only [List.mem_cons, List.not_mem_nil, or_false] at hl0
    rcases hl0 with rfl | rfl | rfl | rfl | rfl | rfl | rfl
    · exact noLB_append_intro (noLB_append_intro (noLB_append_intro (by decide) hne) (by decide)) hc
    · decide
    · exact noLB_append_intro (by decide) hne
    · exact noLB_append_intro (by decide) hne
    · decide
    · decide
    · decide
  · -- validation block
    obtain ⟨lb, hmem, hin⟩ := List.mem_flatMap.1 hl1
    have hlb := cleanLabel_noLB (hv lb hmem)
    simp only [List.mem_cons, List.not_mem_nil, or_false] at hin
    rcases hin with rfl | rfl | rfl | rfl | rfl
    · exact noLB_append_intro (by decide) hlb
    · exact noLB_append_intro (by decide) hlb
    · decide
    · exact noLB_append_intro (by decide) hlb
    · decide
  · -- exception block
    obtain ⟨lb, hmem, hin⟩ := List.mem_flatMap.1 hl2
    have hlb := cleanLabel_noLB (hx lb hmem)
    simp only [List.mem_cons, List.not_mem_nil, or_false] at hin
    rcases hin with rfl | rfl | rfl | rfl | rfl
    · exact noLB_append_intro (by decide) hlb
    · exact noLB_append_intro (by decide) hlb
    · decide
    · exact noLB_append_intro (by decide) hlb
    · decide
  · -- service-call block
    obtain ⟨lb, hmem, hin⟩ := List.mem_flatMap.1 hl3
    have hlb := cleanLabel_noLB (hs lb hmem)
    simp only [List.mem_cons, List.not_mem_nil, or_false] at hin
    rcases hin with rfl | rfl | rfl | rfl | rfl
    · exact noLB_append_intro (by decide) hlb
    · exact noLB_append_intro (by decide) hlb
    · decide
    · exact noLB_append_intro (by decide) hlb
    · decide

theorem flatMap_congr_mem {α β : Type} (l : List α) (f g : α → List β)
    (h : ∀ a ∈ l, f a = g a) : l.flatMap f = l.flatMap g := by
  induction l with
  | nil => rfl
  | cons a t ih =>
    rw [List.flatMap_cons, List.flatMap_cons, h a (List.mem_cons_self a t)]
    rw [ih (fun b hb => h b (List.mem_cons_of_mem a hb))]

theorem extract_scenario_eq (c : Controller) (e : Endpoint)
    (dtos validations exceptions service_calls : List String)
    (hc : noLB c.name = true) (he : cleanLabel e.name = true)
    (hv : ∀ l ∈ validations, cleanLabel l = true)
    (hx : ∀ l ∈ exceptions, cleanLabel l = true)
    (hs : ∀ l ∈ service_calls, cleanLabel l = true) :
    extract_steps_from_feature
        (scenario_for_endpoint c e dtos validations exceptions service_calls) =
      ([String.mk ("Given valid input for ".data ++ e.name.data),
        "When the API is called", "Then the response should indicate success"] ++
       validations.flatMap (fun lb =>
         [String.mk ("Given invalid input that triggers ".data ++ lb.data),
          "When the API is called",
          String.mk ("Then the response should indicate a validation error for ".data ++ lb.data)]) ++
       exceptions.flatMap (fun lb =>
         [String.mk ("Given a situation that causes ".data ++ lb.data),
          "When the API is called",
          String.mk ("Then the response should indicate an error for ".data ++ lb.data)]) ++
       service_calls.flatMap (fun lb =>
         [String.mk ("Given the API depends on ".data ++ lb.data),
          "When the API is called",
          String.mk ("Then the response should reflect the result of ".data ++ lb.data)])).toFinset := by
  show (pySplitlines (pyJoinNl (scenario_lines c e validations exceptions service_calls))).foldl
      stepIns ∅ = _
  rw [foldl_stepIns_join _
    (scenario_lines_noLB c e validations exceptions service_calls hc he hv hx hs) ∅]
  rw [foldl_stepIns_filterMap, Finset.empty_union]
  refine congrArg List.toFinset ?_
  unfold scenario_lines
  rw [List.filterMap_append, List.filterMap_append, List.filterMap_append]
  rw [filterMap_flatMap_list, filterMap_flatMap_list, filterMap_flatMap_list]
  rw [List.filterMap_cons_none (lineStep_none_of_split
      ("Feature: " ++ e.name ++ " endpoint in " ++ c.name) [] 'F'
      ("eature: ".data ++ ((e.name.data ++ " endpoint in ".data) ++ c.name.data))
      (by simp only [append_eq_mk]; rfl) (by decide) (by decide) (by decide) (by decide)
      (by decide))]
  rw [List.filterMap_cons_none lineStep_blank]
  rw [List.filterMap_cons_none (lineStep_none_of_split
      ("  Scenario: Successful call to " ++ e.name) [' ', ' '] 'S'
      ("cenario: Successful call to ".data ++ e.name.data)
      (by rw [append_eq_mk]; rfl) (by decide) (by decide) (by decide) (by decide) (by decide))]
  rw [List.filterMap_cons_some (lineStep_pG e.name he)]
  rw [List.filterMap_cons_some lineStep_W]
  rw [List.filterMap_cons_some lineStep_pT]
  rw [List.filterMap_cons_none lineStep_blank]
  rw [flatMap_congr_mem validations _
    (fun lb => [String.mk ("Given invalid input that triggers ".data ++ lb.data),
      "When the API is called",
      String.mk ("Then the response should indicate a validation error for ".data ++ lb.data)])
    (fun lb hm => by
      simp only [List.filterMap_cons_none (lineStep_none_of_split
          ("  Scenario: Validation error - " ++ lb) [' ', ' '] 'S'
          ("cenario: Validation error - ".data ++ lb.data)
          (by rw [append_eq_mk]; rfl) (by decide) (by decide) (by decide) (by decide)
          (by decide)),
        List.filterMap_cons_some (lineStep_gv lb (hv lb hm)),
        List.filterMap_cons_some lineStep_W,
        List.filterMap_cons_some (lineStep_tv lb (hv lb hm)),
        List.filterMap_cons_none lineStep_blank]
      rfl)]
  rw [flatMap_congr_mem exceptions _
    (fun lb => [String.mk ("Given a situation that causes ".data ++ lb.data),
      "When the API is called",
      String.mk ("Then the response should indicate an error for ".data ++ lb.data)])
    (fun lb hm => by
      simp only [List.filterMap_cons_none (lineStep_none_of_split
          ("  Scenario: Exception - " ++ lb) [' ', ' '] 'S'
          ("cenario: Exception - ".data ++ lb.data)
          (by rw [append_eq_mk]; rfl) (by decide) (by decide) (by decide) (by decide)
          (by decide)),
        List.filterMap_cons_some (lineStep_gx lb (hx lb hm)),
        List.filterMap_cons_some lineStep_W,
        List.filterMap_cons_some (lineStep_tx lb (hx lb hm)),
        List.filterMap_cons_none lineStep_blank]
      rfl)]
  rw [flatMap_congr_mem service_calls _
    (fun lb => [String.mk ("Given the API depends on ".data ++ lb.data),
      "When the API is called",
      String.mk ("Then the response should reflect the result of ".data ++ lb.data)])
    (fun lb hm => by
      simp only [List.filterMap_cons_none (lineStep_none_of_split
          ("  Scenario: Dependency call - " ++ lb) [' ', ' '] 'S'
          ("cenario: Dependency call - ".data ++ lb.data)
          (by rw [append_eq_mk]; rfl) (by decide) (by decide) (by decide) (by decide)
          (by decide)),
        List.filterMap_cons_some (lineStep_gs lb (hs lb hm)),
        List.filterMap_cons_some lineStep_W,
        List.filterMap_cons_some (lineStep_ts lb (hs lb hm)),
        List.filterMap_cons_none lineStep_blank]
      rfl)]
  rfl

theorem pre_ne (P : List Char) (c d : Char) (st tt : List Char) (hcd : c ≠ d) :
    P ++ c :: st ≠ P ++ d :: tt := by
  induction P with
  | nil =>
    intro h
    injection h with h1 h2
    exact hcd h1
  | cons p ps ih =>
    intro h
    rw [List.cons_append, List.cons_append] at h
    injection h with h1 h2
    exact ih h2

theorem mk_app_ne (P : List Char) (c d : Char) (st tt a b : List Char) (hcd : c ≠ d)
    (ha : a = P ++ c :: st) (hb : b = P ++ d :: tt) : String.mk a ≠ String.mk b := by
  intro h
  have h2 : a = b := congrArg String.data h
  rw [ha, hb] at h2
  exact pre_ne P c d st tt hcd h2

theorem mk_app_inj (P : List Char) (a b : String)
    (h : String.mk (P ++ a.data) = String.mk (P ++ b.data)) : a = b := by
  have h2 : P ++ a.data = P ++ b.data := congrArg String.data h
  exact str_ext a b (List.append_cancel_left h2)

theorem nodup_pairFlat (f g : String → String) (l : List String)
    (hf : ∀ a ∈ l, ∀ b ∈ l, f a = f b → a = b)
    (hg : ∀ a ∈ l, ∀ b ∈ l, g a = g b → a = b)
    (hfg : ∀ a ∈ l, ∀ b ∈ l, f a ≠ g b)
    (hl : l.Nodup) : (l.flatMap fun a => [f a, g a]).Nodup := by
  induction l with
  | nil => simp
  | cons a t ih =>
    rw [List.flatMap_cons]
    have hat : a ∉ t := (List.nodup_cons.1 hl).1
    have htn : t.Nodup := (List.nodup_cons.1 hl).2
    have hfR : ∀ x ∈ t, ∀ y ∈ t, f x = f y → x = y :=
      fun x hx y hy => hf x (List.mem_cons_of_mem a hx) y (List.mem_cons_of_mem a hy)
    have hgR : ∀ x ∈ t, ∀ y ∈ t, g x = g y → x = y :=
      fun x hx y hy => hg x (List.mem_cons_of_mem a hx) y (List.mem_cons_of_mem a hy)
    have hfgR : ∀ x ∈ t, ∀ y ∈ t, f x ≠ g y :=
      fun x hx y hy => hfg x (List.mem_cons_of_mem a hx) y (List.mem_cons_of_mem a hy)
    show (f a :: g a :: t.flatMap fun x => [f x, g x]).Nodup
    rw [List.nodup_cons, List.nodup_cons]
    refine ⟨?_, ?_, ih hfR hgR hfgR htn⟩
    · simp only [List.mem_cons, List.mem_flatMap]
      rintro (h | ⟨b, hb, hmem⟩)
      · exact hfg a (List.mem_cons_self a t) a (List.mem_cons_self a t) h
      · simp only [List.mem_cons, List.not_mem_nil, or_false] at hmem
        rcases hmem with h | h
        · exact hat ((hf a (List.mem_cons_self a t) b (List.mem_cons_of_mem a hb) h) ▸ hb)
        · exact hfg a (List.mem_cons_self a t) b (List.mem_cons_of_mem a hb) h
    · simp only [List.mem_flatMap]
      rintro ⟨b, hb, hmem⟩
      simp only [List.mem_cons, List.not_mem_nil, or_false] at hmem
      rcases hmem with h | h
      · exact hfg b (List.mem_cons_of_mem a hb) a (List.mem_cons_self a t) h.symm
      · exact hat ((hg a (List.mem_cons_self a t) b (List.mem_cons_of_mem a hb) h) ▸ hb)

theorem length_pairFlat (f g : String → String) (l : List String) :
    (l.flatMap fun a => [f a, g a]).length = 2 * l.length := by
  induction l with
  | nil => rfl
  | cons a t ih =>
    rw [List.flatMap_cons, List.length_cons]
    show ((t.flatMap fun x => [f x, g x]).length + 1) + 1 = 2 * (t.length + 1)
    rw [ih]
    omega

theorem toFinset_dedupW (Wl pG pT : String) (f1 g1 f2 g2 f3 g3 : String → String)
    (v x sc : List String) :
    ([pG, Wl, pT] ++ v.flatMap (fun lb => [f1 lb, Wl, g1 lb]) ++
      x.flatMap (fun lb => [f2 lb, Wl, g2 lb]) ++
      sc.flatMap (fun lb => [f3 lb, Wl, g3 lb])).toFinset =
    ([pG, Wl, pT] ++ v.flatMap (fun lb => [f1 lb, g1 lb]) ++
      x.flatMap (fun lb => [f2 lb, g2 lb]) ++
      sc.flatMap (fun lb => [f3 lb, g3 lb])).toFinset := by
  ext a
  simp only [List.mem_toFinset, List.mem_append, List.mem_flatMap, List.mem_cons,
    List.not_mem_nil, or_false]
  constructor
  · rintro (((h | ⟨lb, hm, h⟩) | ⟨lb, hm, h⟩) | ⟨lb, hm, h⟩)
    · exact Or.inl (Or.inl (Or.inl h))
    · rcases h with h | h | h
      · exact Or.inl (Or.inl (Or.inr ⟨lb, hm, Or.inl h⟩))
      · exact Or.inl (Or.inl (Or.inl (Or.inr (Or.inl h))))
      · exact Or.inl (Or.inl (Or.inr ⟨lb, hm, Or.inr h⟩))
    · rcases h with h | h | h
      · exact Or.inl (Or.inr ⟨lb, hm, Or.inl h⟩)
      · exact Or.inl (Or.inl (Or.inl (Or.inr (Or.inl h))))
      · exact Or.inl (Or.inr ⟨lb, hm, Or.inr h⟩)
    · rcases h with h | h | h
      · exact Or.inr ⟨lb, hm, Or.inl h⟩
      · exact Or.inl (Or.inl (Or.inl (Or.inr (Or.inl h))))
      · exact Or.inr ⟨lb, hm, Or.inr h⟩
  · rintro (((h | ⟨lb, hm, h⟩) | ⟨lb, hm, h⟩) | ⟨lb, hm, h⟩)
    · exact Or.inl (Or.inl (Or.inl h))
    · rcases h with h | h
      · exact Or.inl (Or.inl (Or.inr ⟨lb, hm, Or.inl h⟩))
      · exact Or.inl (Or.inl (Or.inr ⟨lb, hm, Or.inr (Or.inr h)⟩))
    · rcases h with h | h
      · exact Or.inl (Or.inr ⟨lb, hm, Or.inl h⟩)
      · exact Or.inl (Or.inr ⟨lb, hm, Or.inr (Or.inr h)⟩)
    · rcases h with h | h
      · exact Or.inr ⟨lb, hm, Or.inl h⟩
      · exact Or.inr ⟨lb, hm, Or.inr (Or.inr h)⟩

theorem mk_pre_ne (P : List Char) (c d : Char) (st tt : List Char) (hcd : c ≠ d) :
    String.mk (P ++ c :: st) ≠ String.mk (P ++ d :: tt) :=
  mk_app_ne P c d st tt (P ++ c :: st) (P ++ d :: tt) hcd rfl rfl

theorem disjoint_head_pairFlat (pG Wl pT : String) (f g : String → String) (l : List String)
    (h1 : ∀ b, pG ≠ f b) (h2 : ∀ b, pG ≠ g b) (h3 : ∀ b, Wl ≠ f b) (h4 : ∀ b, Wl ≠ g b)
    (h5 : ∀ b, pT ≠ f b) (h6 : ∀ b, pT ≠ g b) :
    List.Disjoint [pG, Wl, pT] (l.flatMap fun a => [f a, g a]) := by
  intro s hs1 hs2
  simp only [List.mem_cons, List.not_mem_nil, or_false] at hs1
  simp only [List.mem_flatMap, List.mem_cons, List.not_mem_nil, or_false] at hs2
  obtain ⟨b, _, hb⟩ := hs2
  rcases hs1 with h | h | h <;> rcases hb with hb | hb
  · exact h1 b (h.symm.trans hb)
  · exact h2 b (h.symm.trans hb)
  · exact h3 b (h.symm.trans hb)
  · exact h4 b (h.symm.trans hb)
  · exact h5 b (h.symm.trans hb)
  · exact h6 b (h.symm.trans hb)

theorem disjoint_pairFlat (f g f2 g2 : String → String) (l1 l2 : List String)
    (h1 : ∀ a b, f a ≠ f2 b) (h2 : ∀ a b, f a ≠ g2 b)
    (h3 : ∀ a b, g a ≠ f2 b) (h4 : ∀ a b, g a ≠ g2 b) :
    List.Disjoint (l1.flatMap fun a => [f a, g a]) (l2.flatMap fun a => [f2 a, g2 a]) := by
  intro s hs1 hs2
  simp only [List.mem_flatMap, List.mem_cons, List.not_mem_nil, or_false] at hs1 hs2
  obtain ⟨a, _, ha⟩ := hs1
  obtain ⟨b, _, hb⟩ := hs2
  rcases ha with ha | ha <;> rcases hb with hb | hb
  · exact h1 a b (ha.symm.trans hb)
  · exact h2 a b (ha.symm.trans hb)
  · exact h3 a b (ha.symm.trans hb)
  · exact h4 a b (ha.symm.trans hb)

theorem nodup_core (en : String) (v x sc : List String)
    (hvn : v.Nodup) (hxn : x.Nodup) (hscn : sc.Nodup) :
    ([String.mk ("Given valid input for ".data ++ en.data),
      "When the API is called", "Then the response should indicate success"] ++
     v.flatMap (fun lb => [String.mk ("Given invalid input that triggers ".data ++ lb.data),
       String.mk ("Then the response should indicate a validation error for ".data ++ lb.data)]) ++
     x.flatMap (fun lb => [String.mk ("Given a situation that causes ".data ++ lb.data),
       String.mk ("Then the response should indicate an error for ".data ++ lb.data)]) ++
     sc.flatMap (fun lb => [String.mk ("Given the API depends on ".data ++ lb.data),
       String.mk ("Then the response should reflect the result of ".data ++ lb.data)])).Nodup := by
  refine List.nodup_append.2 ⟨List.nodup_append.2 ⟨List.nodup_append.2 ⟨?_, ?_, ?_⟩, ?_,
    List.disjoint_append_left.2 ⟨?_, ?_⟩⟩, ?_,
    List.disjoint_append_left.2 ⟨List.disjoint_append_left.2 ⟨?_, ?_⟩, ?_⟩⟩
  · refine List.nodup_cons.2 ⟨?_, by decide⟩
    simp only [List.mem_cons, List.not_mem_nil, or_false]
    rintro (h | h)
    · exact mk_pre_ne [] 'G' 'W' _ _ (by decide) h
    · exact mk_pre_ne [] 'G' 'T' _ _ (by decide) h
  · exact nodup_pairFlat _ _ v
      (fun a _ b _ h => mk_app_inj "Given invalid input that triggers ".data a b h)
      (fun a _ b _ h =>
        mk_app_inj "Then the response should indicate a validation error for ".data a b h)
      (fun a _ b _ => mk_pre_ne [] 'G' 'T' _ _ (by decide))
      hvn
  · exact disjoint_head_pairFlat _ _ _ _ _ v
      (fun b => mk_pre_ne "Given ".data 'v' 'i' _ _ (by decide))
      (fun b => mk_pre_ne [] 'G' 'T' _ _ (by decide))
      (fun b => mk_pre_ne [] 'W' 'G' _ _ (by decide))
      (fun b => mk_pre_ne [] 'W' 'T' _ _ (by decide))
      (fun b => mk_pre_ne [] 'T' 'G' _ _ (by decide))
      (fun b => mk_pre_ne "Then the response should indicate ".data 's' 'a' _ _ (by decide))
  · exact nodup_pairFlat _ _ x
      (fun a _ b _ h => mk_app_inj "Given a situation that causes ".data a b h)
      (fun a _ b _ h => mk_app_inj "Then the response should indicate an error for ".data a b h)
      (fun a _ b _ => mk_pre_ne [] 'G' 'T' _ _ (by decide))
      hxn
  · exact disjoint_head_pairFlat _ _ _ _ _ x
      (fun b => mk_pre_ne "Given ".data 'v' 'a' _ _ (by decide))
      (fun b => mk_pre_ne [] 'G' 'T' _ _ (by decide))
      (fun b => mk_pre_ne [] 'W' 'G' _ _ (by decide))
      (fun b => mk_pre_ne [] 'W' 'T' _ _ (by decide))
      (fun b => mk_pre_ne [] 'T' 'G' _ _ (by decide))
      (fun b => mk_pre_ne "Then the response should indicate ".data 's' 'a' _ _ (by decide))
  · exact disjoint_pairFlat _ _ _ _ v x
      (fun a b => mk_pre_ne "Given ".data 'i' 'a' _ _ (by decide))
      (fun a b => mk_pre_ne [] 'G' 'T' _ _ (by decide))
      (fun a b => mk_pre_ne [] 'T' 'G' _ _ (by decide))
      (fun a b => mk_pre_ne "Then the response should indicate a".data ' ' 'n' _ _ (by decide))
  · exact nodup_pairFlat _ _ sc
      (fun a _ b _ h => mk_app_inj "Given the API depends on ".data a b h)
      (fun a _ b _ h =>
        mk_app_inj "Then the response should reflect the result of ".data a b h)
      (fun a _ b _ => mk_pre_ne [] 'G' 'T' _ _ (by decide))
      hscn
  · exact disjoint_head_pairFlat _ _ _ _ _ sc
      (fun b => mk_pre_ne "Given ".data 'v' 't' _ _ (by decide))
      (fun b => mk_pre_ne [] 'G' 'T' _ _ (by decide))
      (fun b => mk_pre_ne [] 'W' 'G' _ _ (by decide))
      (fun b => mk_pre_ne [] 'W' 'T' _ _ (by decide))
      (fun b => mk_pre_ne [] 'T' 'G' _ _ (by decide))
      (fun b => mk_pre_ne "Then the response should ".data 'i' 'r' _ _ (by decide))
  · exact disjoint_pairFlat _ _ _ _ v sc
      (fun a b => mk_pre_ne "Given ".data 'i' 't' _ _ (by decide))
      (fun a b => mk_pre_ne [] 'G' 'T' _ _ (by decide))
      (fun a b => mk_pre_ne [] 'T' 'G' _ _ (by decide))
      (fun a b => mk_pre_ne "Then the response should ".data 'i' 'r' _ _ (by decide))
  · exact disjoint_pairFlat _ _ _ _ x sc
      (fun a b => mk_pre_ne "Given ".data 'a' 't' _ _ (by decide))
      (fun a b => mk_pre_ne [] 'G' 'T' _ _ (by decide))
      (fun a b => mk_pre_ne [] 'T' 'G' _ _ (by decide))
      (fun a b => mk_pre_ne "Then the response should ".data 'i' 'r' _ _ (by decide))

set_option maxRecDepth 40000 in
/-- Counterexample to C10 as stated: the validation labels "v" and "v "
are pairwise distinct and contain no angle-bracket placeholder, yet the
trailing space is removed by the per-line strip of
extract_steps_from_feature, so the two validation scenarios contribute
the same two steps and the set has 5 elements, not 3 + 2*2 = 7. -/
theorem claim_C10_counterexample :
    (["v", "v "] : List String).Nodup ∧
    (∀ l ∈ (["v", "v "] : List String), ∀ ch ∈ l.data, ch ≠ '<' ∧ ch ≠ '>') ∧
    ¬ (extract_steps_from_feature
        (scenario_for_endpoint ⟨"Order", [⟨"create", []⟩]⟩ ⟨"create", []⟩
          [] ["v", "v "] [] [])).card =
      3 + 2 * 2 + 2 * 0 + 2 * 0 := by decide

/-- C10 (amended): if the endpoint name and every validation, exception
and service-call label is clean (nonempty, free of line breaks and of the
characters < and >, and not ending in whitespace), the controller name is
free of line breaks, and the three label lists are each duplicate-free,
then extracting steps from the feature produced by scenario_for_endpoint
yields exactly 3 + 2*N + 2*M + 2*K distinct steps: the shared
"When the API is called" step deduplicates to one element and all other
generated steps are pairwise distinct. -/
theorem claim_C10_step_count (c : Controller) (e : Endpoint)
    (dtos validations exceptions service_calls : List String)
    (hc : noLB c.name = true) (he : cleanLabel e.name = true)
    (hv : ∀ l ∈ validations, cleanLabel l = true)
    (hx : ∀ l ∈ exceptions, cleanLabel l = true)
    (hs : ∀ l ∈ service_calls, cleanLabel l = true)
    (hvn : validations.Nodup) (hxn : exceptions.Nodup) (hscn : service_calls.Nodup) :
    (extract_steps_from_feature
        (scenario_for_endpoint c e dtos validations exceptions service_calls)).card =
      3 + 2 * validations.length + 2 * exceptions.length + 2 * service_calls.length := by
  rw [extract_scenario_eq c e dtos validations exceptions service_calls hc he hv hx hs]
  rw [toFinset_dedupW]
  rw [List.toFinset_card_of_nodup
    (nodup_core e.name validations exceptions service_calls hvn hxn hscn)]
  simp only [List.length_append, length_pairFlat, List.length_cons, List.length_nil]

/-- Witness for C10 at Scenario A of the specification: one validation,
one exception and one service call give 3 + 2 + 2 + 2 = 9 distinct steps. -/
theorem claim_C10_witness :
    (extract_steps_from_feature
        (scenario_for_endpoint ⟨"Order", [⟨"create", ["PaymentService"]⟩]⟩
          ⟨"create", ["PaymentService"]⟩ [] ["missingField"] ["OrderNotFound"]
          ["PaymentService"])).card = 9 :=
  claim_C10_step_count ⟨"Order", [⟨"create", ["PaymentService"]⟩]⟩
    ⟨"create", ["PaymentService"]⟩ [] ["missingField"] ["OrderNotFound"] ["PaymentService"]
    (by decide) (by decide) (by decide) (by decide) (by decide)
    (by decide) (by decide) (by decide)

end BddGen
